import Mathlib

/-!
Verification of the Quoridor-like rule engine (`src/occams_council/engine/`):
a shallow embedding of `state.py` and `rules.py` over `Int` coordinates,
together with a small reference-heap model for the aliasing claims about
`clone` and `apply_move`.
-/

set_option maxRecDepth 10000

namespace Quoridor

/-! ## state.py: constants and the data model -/

def BOARD_SIZE : Int := 9

def MAX_WALLS_PER_PLAYER : Int := 10

def TOTAL_SHARED_WALLS : Int := MAX_WALLS_PER_PLAYER * 2

/-- `Position` dataclass: an integer row/column pair. -/
structure Position where
  row : Int
  col : Int
deriving DecidableEq

/-- A wall key `(row, col, horizontal)` as stored in the `walls` set. -/
def WallKey := Int × Int × Bool
deriving DecidableEq

/-- `Wall` dataclass: anchor cell plus orientation flag. -/
structure Wall where
  row : Int
  col : Int
  horizontal : Bool
deriving DecidableEq

/-- `Wall.key()`: the tuple stored in the wall set. -/
def Wall.key (w : Wall) : WallKey := (w.row, w.col, w.horizontal)

/-- `Move` dataclass: tag string plus optional pawn-destination / wall
payloads.  The Python field `to` is named `dest` here because `to` is a
reserved word in Lean. -/
structure Move where
  kind : String
  dest : Option Position := none
  wall : Option Wall := none
deriving DecidableEq

def Move.mkPawn (r c : Int) : Move := { kind := "pawn", dest := some ⟨r, c⟩ }

def Move.mkWall (r c : Int) (h : Bool) : Move := { kind := "wall", wall := some ⟨r, c, h⟩ }

/-- `GameState` dataclass.  The Python `set` of walls is modelled as a
duplicate-free list of keys; `shared_walls_remaining` and player indices are
Python ints, hence `Int`. -/
structure GameState where
  pawns : List Position
  walls : List WallKey
  shared_walls_remaining : Int := TOTAL_SHARED_WALLS
  current_player : Int := 0
  winner : Option Int := none
  num_players : Int := 2
deriving DecidableEq

/-- Python list indexing `l[i]`, including the negative-index convention.
Out-of-range access (an `IndexError` in Python) returns a junk cell; every
theorem below only indexes in range. -/
def pyGet (l : List Position) (i : Int) : Position :=
  if 0 ≤ i then l.getD i.toNat ⟨0, 0⟩
  else l.getD (l.length - (-i).toNat) ⟨0, 0⟩

/-- Python list assignment `l[i] = v` (same indexing convention). -/
def pySet (l : List Position) (i : Int) (v : Position) : List Position :=
  if 0 ≤ i then l.set i.toNat v
  else l.set (l.length - (-i).toNat) v

/-- Python `set.add`: insert a key unless it is already present. -/
def wallsAdd (walls : List WallKey) (k : WallKey) : List WallKey :=
  if k ∈ walls then walls else walls ++ [k]

/-- `GameState.clone`: in the pure value model a clone is the same value
(`list(...)` / `set(...)` copying is modelled separately in the heap model). -/
def GameState.clone (s : GameState) : GameState :=
  { pawns := s.pawns
    walls := s.walls
    shared_walls_remaining := s.shared_walls_remaining
    current_player := s.current_player
    winner := s.winner
    num_players := s.num_players }

/-- `GameState.is_terminal`. -/
def GameState.is_terminal (s : GameState) : Bool := s.winner ≠ none

/-- One step of the `check_winner` scan: the body of the `for i, p in
enumerate(self.pawns)` loop, as an update of the `winner` field. -/
def winnerStep (num_players : Int) (w : Option Int) (ip : Nat × Position) : Option Int :=
  let i := ip.1
  let p := ip.2
  if i = 0 ∧ p.row = BOARD_SIZE - 1 then some 0
  else if i = 1 then
    if num_players = 2 then (if p.row = 0 then some 1 else w)
    else (if p.col = 0 then some 1 else w)
  else if i = 2 ∧ p.row = 0 then some 2
  else if i = 3 ∧ p.col = BOARD_SIZE - 1 then some 3
  else w

/-- `GameState.check_winner`: returns unchanged if a winner is already set,
otherwise scans all pawns in index order (no early exit in the source). -/
def GameState.check_winner (s : GameState) : GameState :=
  if s.winner ≠ none then s
  else { s with winner := s.pawns.enum.foldl (winnerStep s.num_players) s.winner }

/-- `GameState.new_game` (the `raise ValueError` branch becomes `Except.error`). -/
def new_game (num_players : Int) : Except String GameState :=
  if ¬ (num_players = 2 ∨ num_players = 4) then
    Except.error "Only 2 or 4 players supported"
  else
    let mid : Int := BOARD_SIZE / 2
    let pawns : List Position :=
      if num_players = 2 then
        [⟨0, mid⟩, ⟨BOARD_SIZE - 1, mid⟩]
      else
        [⟨0, mid⟩, ⟨mid, BOARD_SIZE - 1⟩, ⟨BOARD_SIZE - 1, mid⟩, ⟨mid, 0⟩]
    Except.ok
      { pawns := pawns
        walls := []
        num_players := num_players
        shared_walls_remaining :=
          if num_players = 2 then TOTAL_SHARED_WALLS else TOTAL_SHARED_WALLS + 10 }

/-- Whether a `new_game` call succeeded (did not raise). -/
def isOkE (e : Except String GameState) : Bool :=
  match e with
  | .ok _ => true
  | .error _ => false

/-! ## rules.py -/

/-- Directions: up, down, left, right. -/
def DIRS : List (Int × Int) := [(-1, 0), (1, 0), (0, -1), (0, 1)]

def in_bounds (r c : Int) : Bool :=
  0 ≤ r ∧ r < BOARD_SIZE ∧ 0 ≤ c ∧ c < BOARD_SIZE

/-- Whether a single wall contributes the blocked direction `(dr,dc)` out of
cell `(r,c)`; this is exactly the set of `add_block` calls `_build_blocked`
makes for that wall. -/
def wallBlocks (w : WallKey) (r c dr dc : Int) : Bool :=
  let wr := w.1
  let wc := w.2.1
  if w.2.2 then
    ((dr = 1 ∧ dc = 0) ∧ r = wr ∧ (c = wc ∨ c = wc + 1)) ∨
    ((dr = -1 ∧ dc = 0) ∧ r = wr + 1 ∧ (c = wc ∨ c = wc + 1))
  else
    ((dr = 0 ∧ dc = 1) ∧ c = wc ∧ (r = wr ∨ r = wr + 1)) ∨
    ((dr = 0 ∧ dc = -1) ∧ c = wc + 1 ∧ (r = wr ∨ r = wr + 1))

/-- `_build_blocked` composed with `_is_blocked`: the blocked-direction map is
represented by its characteristic function over the wall set. -/
def is_blocked (walls : List WallKey) (r c dr dc : Int) : Bool :=
  walls.any (fun w => wallBlocks w r c dr dc)

/-- The two side-step diagonal direction deltas tried when a straight jump is
unavailable. -/
def diagOptions (d : Int × Int) : List (Int × Int) :=
  if d.1 ≠ 0 then [(d.1, 1), (d.1, -1)] else [(1, d.2), (-1, d.2)]

/-- The moves contributed by one direction of the `generate_pawn_moves` loop. -/
def pawnMovesDir (walls : List WallKey) (my opp : Position) (d : Int × Int) : List Move :=
  let nr := my.row + d.1
  let nc := my.col + d.2
  if ¬ in_bounds nr nc then []
  else if is_blocked walls my.row my.col d.1 d.2 then []
  else if nr = opp.row ∧ nc = opp.col then
    let jr := nr + d.1
    let jc := nc + d.2
    if in_bounds jr jc ∧ ¬ is_blocked walls opp.row opp.col d.1 d.2 then
      [Move.mkPawn jr jc]
    else
      (diagOptions d).filterMap (fun dd =>
        let rr := my.row + dd.1
        let cc := my.col + dd.2
        if ¬ in_bounds rr cc then none
        else if is_blocked walls opp.row opp.col (rr - opp.row) (cc - opp.col) then none
        else some (Move.mkPawn rr cc))
  else [Move.mkPawn nr nc]

/-- The final deduplication pass: keep the first move for each destination
cell (Python dict insertion order). -/
def dedupMoves : List Move → List (Int × Int) → List Move
  | [], _ => []
  | m :: rest, seen =>
    match m.dest with
    | none => dedupMoves rest seen
    | some p =>
      if (p.row, p.col) ∈ seen then dedupMoves rest seen
      else m :: dedupMoves rest ((p.row, p.col) :: seen)

/-- `generate_pawn_moves`. -/
def generate_pawn_moves (s : GameState) : List Move :=
  let me := s.current_player
  let other := 1 - me
  let my := pyGet s.pawns me
  let opp := pyGet s.pawns other
  dedupMoves (DIRS.flatMap (pawnMovesDir s.walls my opp)) []

/-- `_goal_rows_for`. -/
def goal_rows_for (player : Int) : List Int :=
  if player = 0 then [BOARD_SIZE - 1] else [0]

/-- One BFS expansion: the in-bounds, unblocked, unvisited neighbors of a cell. -/
def bfsNexts (walls : List WallKey) (r c : Int) (visited : List (Int × Int)) :
    List (Int × Int) :=
  DIRS.filterMap (fun d =>
    let nr := r + d.1
    let nc := c + d.2
    if in_bounds nr nc ∧ ¬ is_blocked walls r c d.1 d.2 ∧ (nr, nc) ∉ visited then
      some (nr, nc)
    else none)

/-- The BFS loop of `_player_has_path` (queue plus visited set, fuel-bounded;
each cell is enqueued at most once, so fuel `200 > 81 + 1` never runs out). -/
def bfs (walls : List WallKey) (goalRows : List Int) :
    Nat → List (Int × Int) → List (Int × Int) → Bool
  | 0, _, _ => false
  | _ + 1, [], _ => false
  | fuel + 1, (r, c) :: q, visited =>
    if r ∈ goalRows then true
    else
      let ns := bfsNexts walls r c visited
      bfs walls goalRows fuel (q ++ ns) (visited ++ ns)

/-- `_player_has_path`. -/
def player_has_path (s : GameState) (player : Int) : Bool :=
  let start := pyGet s.pawns player
  let goalRows := goal_rows_for player
  if start.row ∈ goalRows then true
  else
    bfs s.walls goalRows 200 [(start.row, start.col)] [(start.row, start.col)]

/-- `_both_players_have_path`. -/
def both_players_have_path (s : GameState) : Bool :=
  player_has_path s 0 ∧ player_has_path s 1

/-- `wall_edges`: the two unit edges covered by a wall. -/
def wall_edges (r c : Int) (horizontal : Bool) :
    List ((Int × Int) × (Int × Int)) :=
  if horizontal then [((r, c), (r + 1, c)), ((r, c + 1), (r + 1, c + 1))]
  else [((r, c), (r, c + 1)), ((r + 1, c), (r + 1, c + 1))]

/-- Python tuple comparison `a > b` on cell pairs. -/
def cellGt (a b : Int × Int) : Bool :=
  a.1 > b.1 ∨ (a.1 = b.1 ∧ a.2 > b.2)

/-- Normalize the endpoint ordering of an edge. -/
def normEdge (e : (Int × Int) × (Int × Int)) : (Int × Int) × (Int × Int) :=
  if cellGt e.1 e.2 then (e.2, e.1) else e

/-- The `existing_horizontal` anchor set. -/
def existingH (walls : List WallKey) : List (Int × Int) :=
  walls.filterMap (fun w => if w.2.2 then some (w.1, w.2.1) else none)

/-- The `existing_vertical` anchor set. -/
def existingV (walls : List WallKey) : List (Int × Int) :=
  walls.filterMap (fun w => if w.2.2 then none else some (w.1, w.2.1))

/-- The `blocked_edges` set: normalized edges covered by existing walls. -/
def blockedEdges (walls : List WallKey) : List ((Int × Int) × (Int × Int)) :=
  walls.flatMap (fun w => (wall_edges w.1 w.2.1 w.2.2).map normEdge)

/-- The per-candidate filter of `generate_wall_moves`: duplicate-key,
crossing and overlap checks, then the cloned-state path simulation. -/
def wallOk (s : GameState) (r c : Int) (horizontal : Bool) : Bool :=
  let wkey : WallKey := (r, c, horizontal)
  if wkey ∈ s.walls then false
  else if horizontal ∧ (r, c) ∈ existingV s.walls then false
  else if ¬ horizontal ∧ (r, c) ∈ existingH s.walls then false
  else if ((wall_edges r c horizontal).map normEdge).any
      (fun e => e ∈ blockedEdges s.walls) then false
  else
    both_players_have_path { s.clone with walls := wallsAdd s.clone.walls wkey }

/-- The candidate anchors `(r, c)` with `0 ≤ r, c ≤ BOARD_SIZE - 2`. -/
def anchors : List (Int × Int) :=
  (List.range 8).flatMap (fun r => (List.range 8).map (fun c => ((r : Int), (c : Int))))

/-- `generate_wall_moves`. -/
def generate_wall_moves (s : GameState) : List Move :=
  if s.shared_walls_remaining ≤ 0 then []
  else
    anchors.flatMap (fun rc =>
      ([true, false]).filterMap (fun h =>
        if wallOk s rc.1 rc.2 h then some (Move.mkWall rc.1 rc.2 h) else none))

/-- `legal_moves`. -/
def legal_moves (s : GameState) : List Move :=
  if s.is_terminal then [] else generate_pawn_moves s ++ generate_wall_moves s

/-- The move-kind branch of `apply_move`: relocate the mover's pawn, or
insert the wall key and decrement the shared pool. -/
def applyBranch (ns : GameState) (m : Move) : GameState :=
  if m.kind = "pawn" ∧ m.dest ≠ none then
    { ns with pawns := pySet ns.pawns ns.current_player (m.dest.getD ⟨0, 0⟩) }
  else if m.kind = "wall" ∧ m.wall ≠ none then
    { ns with
      walls := wallsAdd ns.walls ((m.wall.getD ⟨0, 0, true⟩).key)
      shared_walls_remaining := ns.shared_walls_remaining - 1 }
  else ns

/-- `apply_move`. -/
def apply_move (s : GameState) (m : Move) : GameState :=
  let ns := applyBranch s.clone m
  let ns := ns.check_winner
  if ¬ ns.is_terminal then
    { ns with current_player := 1 - ns.current_player }
  else ns

/-! ## Reference-heap model

Python's `GameState` holds references to a mutable pawn list and a mutable
wall set.  To state the aliasing claims about `clone` and `apply_move`
(structural independence, no mutation of the input), the two mutable
substructures are modelled as cells of an explicit heap; `list(...)` and
`set(...)` in `clone` become fresh allocations. -/

structure HeapModel where
  pawnsH : List (List Position)
  wallsH : List (List WallKey)

/-- `GameState` at the heap level: the two mutable substructures are
references into the heap, the scalar fields are inline. -/
structure GameStateR where
  pawnsRef : Nat
  wallsRef : Nat
  shared_walls_remaining : Int
  current_player : Int
  winner : Option Int
  num_players : Int

def getPawnsH (h : HeapModel) (r : Nat) : List Position := h.pawnsH.getD r []

def getWallsH (h : HeapModel) (r : Nat) : List WallKey := h.wallsH.getD r []

/-- In-place mutation of the pawn-list object at reference `r`. -/
def setPawnsH (h : HeapModel) (r : Nat) (v : List Position) : HeapModel :=
  { h with pawnsH := h.pawnsH.set r v }

/-- In-place mutation of the wall-set object at reference `r`. -/
def setWallsH (h : HeapModel) (r : Nat) (v : List WallKey) : HeapModel :=
  { h with wallsH := h.wallsH.set r v }

/-- Allocate a fresh pawn-list object (`list(...)`). -/
def allocPawnsH (h : HeapModel) (v : List Position) : HeapModel × Nat :=
  ({ h with pawnsH := h.pawnsH ++ [v] }, h.pawnsH.length)

/-- Allocate a fresh wall-set object (`set(...)`). -/
def allocWallsH (h : HeapModel) (v : List WallKey) : HeapModel × Nat :=
  ({ h with wallsH := h.wallsH ++ [v] }, h.wallsH.length)

/-- References of a state actually point into the heap. -/
def ValidRefs (h : HeapModel) (s : GameStateR) : Prop :=
  s.pawnsRef < h.pawnsH.length ∧ s.wallsRef < h.wallsH.length

/-- `GameState.clone` at the heap level: copy the pawn list and the wall set
into freshly allocated objects, keep the scalar fields. -/
def cloneR (h : HeapModel) (s : GameStateR) : HeapModel × GameStateR :=
  let p := allocPawnsH h (getPawnsH h s.pawnsRef)
  let w := allocWallsH p.1 (getWallsH p.1 s.wallsRef)
  (w.1, { s with pawnsRef := p.2, wallsRef := w.2 })

/-- Read a heap-level state back as a value (`GameState`). -/
def readStateR (h : HeapModel) (s : GameStateR) : GameState :=
  { pawns := getPawnsH h s.pawnsRef
    walls := getWallsH h s.wallsRef
    shared_walls_remaining := s.shared_walls_remaining
    current_player := s.current_player
    winner := s.winner
    num_players := s.num_players }

/-- The move-kind branch of `apply_move` at the heap level: mutate the
clone's pawn-list object, or its wall-set object and wall counter. -/
def applyBranchR (h1 : HeapModel) (ns : GameStateR) (m : Move) : HeapModel × GameStateR :=
  if m.kind = "pawn" ∧ m.dest ≠ none then
    (setPawnsH h1 ns.pawnsRef
      (pySet (getPawnsH h1 ns.pawnsRef) ns.current_player (m.dest.getD ⟨0, 0⟩)), ns)
  else if m.kind = "wall" ∧ m.wall ≠ none then
    (setWallsH h1 ns.wallsRef
      (wallsAdd (getWallsH h1 ns.wallsRef) ((m.wall.getD ⟨0, 0, true⟩).key)),
     { ns with shared_walls_remaining := ns.shared_walls_remaining - 1 })
  else (h1, ns)

/-- `check_winner` at the heap level (the pawn list is read from the heap). -/
def checkWinnerR (h : HeapModel) (ns : GameStateR) : GameStateR :=
  if ns.winner ≠ none then ns
  else { ns with
    winner := (getPawnsH h ns.pawnsRef).enum.foldl (winnerStep ns.num_players) ns.winner }

/-- `apply_move` at the heap level: clone, then mutate only the clone's
objects and fields, exactly as the source does. -/
def apply_moveR (h : HeapModel) (s : GameStateR) (m : Move) : HeapModel × GameStateR :=
  let c := cloneR h s
  let b := applyBranchR c.1 c.2 m
  let ns2 := checkWinnerR b.1 b.2
  if ¬ ns2.winner ≠ none then
    (b.1, { ns2 with current_player := 1 - ns2.current_player })
  else (b.1, ns2)

/-! ## Specification-side notions

Abstract single-step adjacency over the blocked-edge-aware movement graph,
its reflexive-transitive closure, and the goal lines of §4.1 of the spec. -/

/-- One unblocked, in-bounds step of the movement graph derived from a wall
set. -/
def Step (walls : List WallKey) (a b : Int × Int) : Prop :=
  ∃ d ∈ DIRS, b = (a.1 + d.1, a.2 + d.2) ∧ in_bounds b.1 b.2 = true ∧
    is_blocked walls a.1 a.2 d.1 d.2 = false

/-- Graph reachability over unblocked edges. -/
def ReachRel (walls : List WallKey) : Int × Int → Int × Int → Prop :=
  Relation.ReflTransGen (Step walls)

/-- A path exists from `start` to some cell satisfying `goal`. -/
def SpecHasPath (walls : List WallKey) (start : Int × Int) (goal : Int × Int → Bool) : Prop :=
  ∃ cell, ReachRel walls start cell ∧ goal cell = true

/-- The goal line of §4.1, per player count: player 0 → last row; player 1 →
first row (2-player) or first column (4-player); player 2 → first row;
player 3 → last column. -/
def specGoalCell (num_players player : Int) (c : Int × Int) : Bool :=
  if player = 0 then c.1 = BOARD_SIZE - 1
  else if player = 1 then (if num_players = 2 then c.1 = 0 else c.2 = 0)
  else if player = 2 then c.1 = 0
  else c.2 = BOARD_SIZE - 1

/-- The cell of a pawn. -/
def cellOf (p : Position) : Int × Int := (p.row, p.col)

/-- The per-index win condition that `check_winner` tests (false for
indices ≥ 4, which the scan ignores). -/
def hitsTarget (num_players : Int) (i : Nat) (p : Position) : Bool :=
  if i = 0 then p.row = BOARD_SIZE - 1
  else if i = 1 then (if num_players = 2 then p.row = 0 else p.col = 0)
  else if i = 2 then p.row = 0
  else if i = 3 then p.col = BOARD_SIZE - 1
  else false

/-- States reachable from a `new_game` state by applying legal moves. -/
inductive Reachable : GameState → Prop
  | base (n : Int) (s : GameState) : new_game n = Except.ok s → Reachable s
  | step (s : GameState) (m : Move) : Reachable s → m ∈ legal_moves s →
      Reachable (apply_move s m)

/-- Invariant for C7: the shared pool is non-negative and the wall set has
no duplicate keys. -/
def InvC7 (s : GameState) : Prop :=
  0 ≤ s.shared_walls_remaining ∧ s.walls.Nodup

/-- Structural validity of a stored wall set: anchors lie in the candidate
grid and no two walls share an anchor (the generator rejects duplicate keys
and crossings). -/
def WallsValid (walls : List WallKey) : Prop :=
  (∀ k ∈ walls, 0 ≤ k.1 ∧ k.1 ≤ BOARD_SIZE - 2 ∧ 0 ≤ k.2.1 ∧ k.2.1 ≤ BOARD_SIZE - 2) ∧
  (∀ k1 ∈ walls, ∀ k2 ∈ walls, k1.1 = k2.1 → k1.2.1 = k2.2.1 → k1.2.2 = k2.2.2)

/-- What `check_winner` having left `winner = None` guarantees about the
pawns of players 0 and 1. -/
def NoWinRow (s : GameState) : Prop :=
  (pyGet s.pawns 0).row ≠ BOARD_SIZE - 1 ∧
  (s.num_players = 2 → (pyGet s.pawns 1).row ≠ 0) ∧
  (s.num_players = 4 → (pyGet s.pawns 1).col ≠ 0)

/-- Player `i` has an abstract path to one of the code's goal rows. -/
def HasPathA (s : GameState) (i : Int) : Prop :=
  ∃ cell, ReachRel s.walls (cellOf (pyGet s.pawns i)) cell ∧
    cell.1 ∈ goal_rows_for i

/-- Inductive invariant for C5 over reachable states. -/
def InvC5 (s : GameState) : Prop :=
  ((s.num_players = 2 ∧ s.pawns.length = 2) ∨
    (s.num_players = 4 ∧ s.pawns.length = 4)) ∧
  (s.current_player = 0 ∨ s.current_player = 1) ∧
  (∀ p ∈ s.pawns, in_bounds p.row p.col = true) ∧
  pyGet s.pawns 0 ≠ pyGet s.pawns 1 ∧
  (s.winner = none → NoWinRow s) ∧
  WallsValid s.walls ∧
  HasPathA s 0 ∧ HasPathA s 1

/-! ## Concrete states used by counterexamples and witnesses -/

/-- The state `new_game(2)` produces. -/
def init2 : GameState :=
  { pawns := [⟨0, 4⟩, ⟨8, 4⟩], walls := [], shared_walls_remaining := 20,
    current_player := 0, winner := none, num_players := 2 }

/-- 4-player position: players 2 and 3 at their starting cells, two walls
near the left edge; one more horizontal wall at (5,0) would seal player 3's
pawn at (4,0) into the pocket {(4,0),(5,0)}. -/
def cex1 : GameState :=
  { pawns := [⟨0, 4⟩, ⟨4, 8⟩, ⟨8, 4⟩, ⟨4, 0⟩],
    walls := [(3, 0, true), (4, 0, false)],
    shared_walls_remaining := 28, current_player := 0, winner := none,
    num_players := 4 }

/-- 4-player position with pawns 0,1,2 stacked in column 4: the straight
jump of player 0 over player 1 lands exactly on player 2's cell. -/
def cex2 : GameState :=
  { pawns := [⟨4, 4⟩, ⟨5, 4⟩, ⟨6, 4⟩, ⟨4, 0⟩], walls := [],
    shared_walls_remaining := 30, current_player := 0, winner := none,
    num_players := 4 }

/-- 4-player position with player 1 to move. -/
def cex3 : GameState :=
  { pawns := [⟨1, 4⟩, ⟨4, 8⟩, ⟨8, 4⟩, ⟨4, 0⟩], walls := [],
    shared_walls_remaining := 30, current_player := 1, winner := none,
    num_players := 4 }

/-- 2-player position in which both pawns stand on their own target rows. -/
def cex6 : GameState :=
  { pawns := [⟨8, 4⟩, ⟨0, 4⟩], walls := [], shared_walls_remaining := 20,
    current_player := 0, winner := none, num_players := 2 }

/-! # Theorems -/

/-! ## Small facts about `check_winner` and the heap model -/

theorem list_length_eq_four {α : Type _} {l : List α} (h : l.length = 4) :
    ∃ a b c d, l = [a, b, c, d] := by
  rcases l with _ | ⟨a, _ | ⟨b, _ | ⟨c, _ | ⟨d, t⟩⟩⟩⟩
  · simp at h
  · simp at h
  · simp at h
  · simp at h
  · have ht : t = [] := by
      simp only [List.length_cons] at h
      exact List.length_eq_zero.mp (by omega)
    exact ⟨a, b, c, d, by rw [ht]⟩

theorem winnerStep_eq_hits (np : Int) (w : Option Int) (i : Nat) (p : Position) :
    winnerStep np w (i, p) = if hitsTarget np i p = true then some (i : Int) else w := by
  simp only [winnerStep, hitsTarget]
  rcases i with _ | _ | _ | _ | i
  all_goals simp
  all_goals split_ifs <;> simp_all

theorem check_winner_current_player (s : GameState) :
    s.check_winner.current_player = s.current_player := by
  unfold GameState.check_winner; split <;> rfl

theorem check_winner_pawns (s : GameState) : s.check_winner.pawns = s.pawns := by
  unfold GameState.check_winner; split <;> rfl

theorem check_winner_walls (s : GameState) : s.check_winner.walls = s.walls := by
  unfold GameState.check_winner; split <;> rfl

theorem check_winner_swr (s : GameState) :
    s.check_winner.shared_walls_remaining = s.shared_walls_remaining := by
  unfold GameState.check_winner; split <;> rfl

theorem check_winner_np (s : GameState) :
    s.check_winner.num_players = s.num_players := by
  unfold GameState.check_winner; split <;> rfl

theorem getPawnsH_set_ne (h : HeapModel) (r r2 : Nat) (v : List Position)
    (hne : r ≠ r2) : getPawnsH (setPawnsH h r v) r2 = getPawnsH h r2 := by
  simp only [getPawnsH, setPawnsH, List.getD_eq_getElem?_getD, List.getElem?_set_ne hne]

theorem getWallsH_set_ne (h : HeapModel) (r r2 : Nat) (v : List WallKey)
    (hne : r ≠ r2) : getWallsH (setWallsH h r v) r2 = getWallsH h r2 := by
  simp only [getWallsH, setWallsH, List.getD_eq_getElem?_getD, List.getElem?_set_ne hne]

theorem getPawnsH_append (h : HeapModel) (r : Nat) (v : List Position)
    (hr : r < h.pawnsH.length) :
    getPawnsH { h with pawnsH := h.pawnsH ++ [v] } r = getPawnsH h r := by
  simp only [getPawnsH, List.getD_eq_getElem?_getD]
  rw [List.getElem?_append]
  simp [hr]

theorem getWallsH_append (h : HeapModel) (r : Nat) (v : List WallKey)
    (hr : r < h.wallsH.length) :
    getWallsH { h with wallsH := h.wallsH ++ [v] } r = getWallsH h r := by
  simp only [getWallsH, List.getD_eq_getElem?_getD]
  rw [List.getElem?_append]
  simp [hr]

/-! ## C3 — turn advance after a move -/

/-- Counterexample for C3: in the 4-player position `cex3` it is player 1's
turn; after a legal pawn move the code sets `current_player` to
`1 - 1 = 0`, not `(1 + 1) mod 4 = 2`. -/
theorem c3_counterexample :
    Move.mkPawn 4 7 ∈ legal_moves cex3 ∧
    (apply_move cex3 (Move.mkPawn 4 7)).winner = none ∧
    (apply_move cex3 (Move.mkPawn 4 7)).current_player = 0 ∧
    (cex3.current_player + 1) % cex3.num_players = 2 ∧ (0 : Int) ≠ 2 := by
  refine ⟨?_, by decide, by decide, by decide, by decide⟩
  have h : legal_moves cex3 = generate_pawn_moves cex3 ++ generate_wall_moves cex3 := by
    unfold legal_moves
    rw [if_neg (by decide : ¬ (cex3.is_terminal = true))]
  rw [h]
  exact List.mem_append_left _ (by decide)

/-- C3 amended: `apply_move` advances `current_player` to
`1 - current_player` (not `(current_player + 1) mod num_players`, which only
agrees in 2-player mode) when the move produced no winner, and leaves
`current_player` unchanged when a winner resulted. -/
theorem c3_turn_advance (s : GameState) (m : Move) :
    ((apply_move s m).winner = none →
      (apply_move s m).current_player = 1 - s.current_player) ∧
    ((apply_move s m).winner ≠ none →
      (apply_move s m).current_player = s.current_player) := by
  have hcpb : (applyBranch s.clone m).current_player = s.current_player := by
    unfold applyBranch
    split
    · rfl
    · split <;> rfl
  have hcp : ((applyBranch s.clone m).check_winner).current_player = s.current_player :=
    (check_winner_current_player _).trans hcpb
  unfold apply_move
  dsimp only
  rw [GameState.is_terminal]
  split
  · rename_i hterm
    simp only [ne_eq, decide_eq_true_eq, not_not] at hterm
    constructor
    · intro _
      exact hcp ▸ rfl
    · intro hne
      exact absurd hterm hne
  · rename_i hterm
    simp only [ne_eq, decide_eq_true_eq, not_not, not_forall] at hterm
    constructor
    · intro hnone
      exact absurd hnone (by simpa using hterm)
    · intro _
      exact hcp

/-- Witness for C3's amended theorem at a concrete state and move. -/
theorem c3_turn_advance_witness :
    (apply_move init2 (Move.mkPawn 1 4)).current_player = 1 - init2.current_player :=
  (c3_turn_advance init2 (Move.mkPawn 1 4)).1 (by decide)

/-! ## Membership in `generate_pawn_moves` -/

theorem dedupMoves_cons_pawn (a b : Int) (rest : List Move) (seen : List (Int × Int)) :
    dedupMoves (Move.mkPawn a b :: rest) seen =
      if (a, b) ∈ seen then dedupMoves rest seen
      else Move.mkPawn a b :: dedupMoves rest ((a, b) :: seen) := rfl

theorem mkPawn_inj {a b a2 b2 : Int} (h : Move.mkPawn a b = Move.mkPawn a2 b2) :
    a = a2 ∧ b = b2 := by
  simpa [Move.mkPawn, Position.mk.injEq] using h

/-- Deduplication keeps exactly the moves whose destination key is unseen,
provided every element is a canonical pawn move. -/
theorem dedupMoves_mem_iff (l : List Move) (seen : List (Int × Int))
    (hl : ∀ m ∈ l, ∃ a b, m = Move.mkPawn a b) (r c : Int) :
    Move.mkPawn r c ∈ dedupMoves l seen ↔
      (Move.mkPawn r c ∈ l ∧ (r, c) ∉ seen) := by
  induction l generalizing seen with
  | nil => simp [dedupMoves]
  | cons m rest ih =>
    obtain ⟨a, b, hm⟩ := hl m (List.mem_cons_self m rest)
    subst hm
    have hrest : ∀ m ∈ rest, ∃ a b, m = Move.mkPawn a b :=
      fun m hm2 => hl m (List.mem_cons_of_mem _ hm2)
    rw [dedupMoves_cons_pawn]
    by_cases hseen : (a, b) ∈ seen
    · rw [if_pos hseen, ih seen hrest]
      simp only [List.mem_cons]
      constructor
      · rintro ⟨h1, h2⟩
        exact ⟨Or.inr h1, h2⟩
      · rintro ⟨h1 | h1, h2⟩
        · obtain ⟨hr, hc⟩ := mkPawn_inj h1
          subst hr
          subst hc
          exact absurd hseen h2
        · exact ⟨h1, h2⟩
    · rw [if_neg hseen]
      simp only [List.mem_cons, ih ((a, b) :: seen) hrest]
      constructor
      · rintro (h1 | ⟨h1, h2⟩)
        · obtain ⟨hr, hc⟩ := mkPawn_inj h1
          subst hr
          subst hc
          exact ⟨Or.inl rfl, hseen⟩
        · exact ⟨Or.inr h1, fun hc => h2 (Or.inr hc)⟩
      · rintro ⟨h1 | h1, h2⟩
        · obtain ⟨hr, hc⟩ := mkPawn_inj h1
          subst hr
          subst hc
          exact Or.inl rfl
        · by_cases hk : ((r, c) : Int × Int) = (a, b)
          · have hr : r = a := congrArg Prod.fst hk
            have hc : c = b := congrArg Prod.snd hk
            subst hr
            subst hc
            exact Or.inl rfl
          · right
            refine ⟨h1, fun hmem2 => ?_⟩
            rcases hmem2 with h3 | h3
            · exact hk h3
            · exact h2 h3

/-- Every move produced for one direction is a canonical pawn move, of one
of the three forms: direct step, straight jump, or side-step diagonal. -/
theorem pawnMovesDir_forms (walls : List WallKey) (my opp : Position) (d : Int × Int)
    (m : Move) (hm : m ∈ pawnMovesDir walls my opp d) :
    (m = Move.mkPawn (my.row + d.1) (my.col + d.2) ∧
      ¬(my.row + d.1 = opp.row ∧ my.col + d.2 = opp.col)) ∨
    ((my.row + d.1 = opp.row ∧ my.col + d.2 = opp.col) ∧
      ((m = Move.mkPawn (my.row + d.1 + d.1) (my.col + d.2 + d.2) ∧
        in_bounds (my.row + d.1 + d.1) (my.col + d.2 + d.2) = true ∧
        is_blocked walls opp.row opp.col d.1 d.2 = false) ∨
      (∃ dd ∈ diagOptions d, m = Move.mkPawn (my.row + dd.1) (my.col + dd.2)))) := by
  unfold pawnMovesDir at hm
  dsimp only at hm
  split at hm
  · simp at hm
  · split at hm
    · simp at hm
    · split at hm
      · rename_i hopp
        right
        refine ⟨hopp, ?_⟩
        split at hm
        · rename_i hjump
          simp only [List.mem_singleton] at hm
          exact Or.inl ⟨hm, by
            simpa using hjump.1, by simpa using hjump.2⟩
        · right
          obtain ⟨dd, hdd, hsome⟩ := List.mem_filterMap.mp hm
          refine ⟨dd, hdd, ?_⟩
          split at hsome
          · simp at hsome
          · split at hsome
            · simp at hsome
            · simpa using hsome.symm
      · rename_i hopp
        left
        simp only [List.mem_singleton] at hm
        exact ⟨hm, hopp⟩

theorem generate_pawn_moves_mem_iff (s : GameState) (r c : Int) :
    Move.mkPawn r c ∈ generate_pawn_moves s ↔
      Move.mkPawn r c ∈ DIRS.flatMap (pawnMovesDir s.walls
        (pyGet s.pawns s.current_player) (pyGet s.pawns (1 - s.current_player))) := by
  unfold generate_pawn_moves
  dsimp only
  rw [dedupMoves_mem_iff _ _ (fun m hm => by
    obtain ⟨d2, _, hmd⟩ := List.mem_flatMap.mp hm
    rcases pawnMovesDir_forms _ _ _ _ _ hmd with ⟨h1, _⟩ | ⟨_, ⟨h1, _⟩ | ⟨dd, _, h1⟩⟩
    · exact ⟨_, _, h1⟩
    · exact ⟨_, _, h1⟩
    · exact ⟨_, _, h1⟩)]
  simp

/-! ## C2 — jump semantics -/

theorem dirs_shape (e : Int × Int) (he : e ∈ DIRS) :
    e = (-1, 0) ∨ e = (1, 0) ∨ e = (0, -1) ∨ e = (0, 1) := by
  simpa [DIRS] using he

/-- Counterexample for C2: in the 4-player state `cex2` the straight jump of
player 0 over player 1 is offered although its landing cell (6,4) holds
player 2's pawn, and only pawn `1 - current_player` was consulted. -/
theorem c2_counterexample :
    cex2.num_players = 4 ∧
    pyGet cex2.pawns 2 = ⟨6, 4⟩ ∧
    Move.mkPawn 6 4 ∈ generate_pawn_moves cex2 := by
  refine ⟨by decide, by decide, by decide⟩

/-- C2 amended: when the cell adjacent in an unblocked direction `d` holds
the pawn of index `1 - current_player`, the straight jump is offered exactly
when the landing cell is in-bounds and the onward edge from the occupied
cell is unblocked — landing-cell occupancy is NOT consulted, and only that
one pawn is treated as occupying a cell.  In a 2-player game the landing
cell can hold no pawn anyway (second conjunct). -/
theorem c2_jump_semantics (s : GameState) (d : Int × Int) (my opp : Position)
    (hmy : my = pyGet s.pawns s.current_player)
    (hopp : opp = pyGet s.pawns (1 - s.current_player))
    (hd : d ∈ DIRS)
    (hadj : opp = ⟨my.row + d.1, my.col + d.2⟩)
    (hin : in_bounds (my.row + d.1) (my.col + d.2) = true)
    (hnb : is_blocked s.walls my.row my.col d.1 d.2 = false) :
    (Move.mkPawn (my.row + 2 * d.1) (my.col + 2 * d.2) ∈ generate_pawn_moves s ↔
      (in_bounds (my.row + 2 * d.1) (my.col + 2 * d.2) = true ∧
        is_blocked s.walls opp.row opp.col d.1 d.2 = false)) ∧
    ((s.current_player = 0 ∨ s.current_player = 1) →
      ∀ k : Int, k = 0 ∨ k = 1 →
        pyGet s.pawns k ≠ ⟨my.row + 2 * d.1, my.col + 2 * d.2⟩) := by
  constructor
  · constructor
    · intro hmem
      rw [generate_pawn_moves_mem_iff] at hmem
      rw [← hmy, ← hopp] at hmem
      obtain ⟨d2, hd2, hmd⟩ := List.mem_flatMap.mp hmem
      rcases pawnMovesDir_forms _ _ _ _ _ hmd with ⟨h1, _⟩ | ⟨hadj2, hcase⟩
      · obtain ⟨e1, e2⟩ := mkPawn_inj h1
        rcases dirs_shape d hd with rfl | rfl | rfl | rfl <;>
          rcases dirs_shape d2 hd2 with rfl | rfl | rfl | rfl <;>
          simp at e1 e2
      · have hd2d : d2 = d := by
          obtain ⟨ha1, ha2⟩ := hadj2
          rw [hadj] at ha1 ha2
          dsimp at ha1 ha2
          have h1 : d2.1 = d.1 := by omega
          have h2 : d2.2 = d.2 := by omega
          exact Prod.ext h1 h2
        subst hd2d
        rcases hcase with ⟨_, hjin, hjbl⟩ | ⟨dd, hdd, hjm⟩
        · constructor
          · rw [show my.row + 2 * d2.1 = my.row + d2.1 + d2.1 from by ring,
              show my.col + 2 * d2.2 = my.col + d2.2 + d2.2 from by ring]
            exact hjin
          · exact hjbl
        · obtain ⟨e1, e2⟩ := mkPawn_inj hjm
          rcases dirs_shape d2 hd2 with rfl | rfl | rfl | rfl <;>
            simp [diagOptions] at hdd <;>
            rcases hdd with rfl | rfl <;> simp at e1 e2
    · rintro ⟨hjin, hjbl⟩
      rw [generate_pawn_moves_mem_iff, ← hmy, ← hopp]
      refine List.mem_flatMap.mpr ⟨d, hd, ?_⟩
      unfold pawnMovesDir
      dsimp only
      rw [if_neg (by simp [hin]), if_neg (by simp [hnb]),
        if_pos (by rw [hadj]; exact ⟨rfl, rfl⟩),
        if_pos (by
          constructor
          · rw [show my.row + d.1 + d.1 = my.row + 2 * d.1 from by ring,
              show my.col + d.2 + d.2 = my.col + 2 * d.2 from by ring]
            exact hjin
          · simp [hjbl])]
      simp only [List.mem_singleton]
      rw [show my.row + 2 * d.1 = my.row + d.1 + d.1 from by ring,
        show my.col + 2 * d.2 = my.col + d.2 + d.2 from by ring]
  · intro hcp k hk heq
    have hdk : d = (-1, 0) ∨ d = (1, 0) ∨ d = (0, -1) ∨ d = (0, 1) := dirs_shape d hd
    have hkey : pyGet s.pawns k = my ∨ pyGet s.pawns k = opp := by
      rcases hcp with hcp0 | hcp1
      · rcases hk with rfl | rfl
        · exact Or.inl (by rw [hmy, hcp0])
        · exact Or.inr (by rw [hopp, hcp0]; norm_num)
      · rcases hk with rfl | rfl
        · exact Or.inr (by rw [hopp, hcp1]; norm_num)
        · exact Or.inl (by rw [hmy, hcp1])
    rcases hkey with hkm | hko
    · rw [hkm] at heq
      have h1 : my.row = my.row + 2 * d.1 := congrArg Position.row heq
      have h2 : my.col = my.col + 2 * d.2 := congrArg Position.col heq
      rcases hdk with rfl | rfl | rfl | rfl <;> simp at h1 h2
    · rw [hko, hadj] at heq
      have h1 : my.row + d.1 = my.row + 2 * d.1 := congrArg Position.row heq
      have h2 : my.col + d.2 = my.col + 2 * d.2 := congrArg Position.col heq
      rcases hdk with rfl | rfl | rfl | rfl <;> simp at h1 h2

/-- Witness for C2's amended theorem: in a 2-player position with pawns at
(4,4) and (5,4) the straight jump to (6,4) is offered. -/
theorem c2_jump_semantics_witness :
    Move.mkPawn 6 4 ∈ generate_pawn_moves
      { pawns := [⟨4, 4⟩, ⟨5, 4⟩], walls := [], shared_walls_remaining := 20,
        current_player := 0, winner := none, num_players := 2 } :=
  ((c2_jump_semantics
    { pawns := [⟨4, 4⟩, ⟨5, 4⟩], walls := [], shared_walls_remaining := 20,
      current_player := 0, winner := none, num_players := 2 }
    (1, 0) ⟨4, 4⟩ ⟨5, 4⟩ (by decide) (by decide) (by decide) (by decide)
    (by decide) (by decide)).1).mpr ⟨by decide, by decide⟩

/-! ## Reachability: closed sets and BFS soundness -/

/-- Reachability never leaves a set that is closed under unblocked steps. -/
theorem reach_subset_closed (walls : List WallKey) (S : List (Int × Int))
    (hclosed : ∀ x ∈ S, ∀ d ∈ DIRS, in_bounds (x.1 + d.1) (x.2 + d.2) = true →
      is_blocked walls x.1 x.2 d.1 d.2 = false → (x.1 + d.1, x.2 + d.2) ∈ S)
    (a b : Int × Int) (ha : a ∈ S) (hr : ReachRel walls a b) : b ∈ S := by
  induction hr with
  | refl => exact ha
  | tail _ hstep ih =>
    obtain ⟨d, hd, hbe, hbin, hbnb⟩ := hstep
    rw [hbe] at *
    exact hclosed _ ih d hd (by simpa using hbin) hbnb

theorem in_bounds_iff (r c : Int) :
    in_bounds r c = true ↔ (0 ≤ r ∧ r < 9 ∧ 0 ≤ c ∧ c < 9) := by
  simp [in_bounds, BOARD_SIZE]

/-- Every wall blocks edges in both directions: the blocked-direction map is
symmetric in the sense that the reverse edge is blocked too. -/
theorem is_blocked_symm (walls : List WallKey) (r c dr dc : Int) :
    is_blocked walls (r + dr) (c + dc) (-dr) (-dc) = is_blocked walls r c dr dc := by
  unfold is_blocked
  apply Bool.eq_iff_iff.mpr
  simp only [List.any_eq_true]
  constructor
  all_goals
    rintro ⟨k, hk, hb⟩
    refine ⟨k, hk, ?_⟩
    unfold wallBlocks at hb ⊢
    rcases k with ⟨wr, wc, h⟩
    rcases h with _ | _ <;> simp_all <;> omega

theorem reach_in_bounds (walls : List WallKey) (a b : Int × Int)
    (ha : in_bounds a.1 a.2 = true) (hr : ReachRel walls a b) :
    in_bounds b.1 b.2 = true := by
  induction hr with
  | refl => exact ha
  | tail _ hstep _ =>
    obtain ⟨d, _, _, hbin, _⟩ := hstep
    exact hbin

theorem dirs_neg (d : Int × Int) (hd : d ∈ DIRS) : (-d.1, -d.2) ∈ DIRS := by
  rcases dirs_shape d hd with rfl | rfl | rfl | rfl <;> decide

theorem step_symm (walls : List WallKey) (a b : Int × Int)
    (ha : in_bounds a.1 a.2 = true) (h : Step walls a b) : Step walls b a := by
  obtain ⟨d, hd, hbe, _, hnb⟩ := h
  refine ⟨(-d.1, -d.2), dirs_neg d hd, ?_, ?_, ?_⟩
  · rw [hbe]
    refine Prod.ext_iff.mpr ⟨?_, ?_⟩ <;> dsimp only <;> omega
  · exact ha
  · rw [hbe]
    dsimp only
    rw [is_blocked_symm]
    exact hnb

theorem reach_symm (walls : List WallKey) (a b : Int × Int)
    (ha : in_bounds a.1 a.2 = true) (hr : ReachRel walls a b) :
    ReachRel walls b a := by
  induction hr with
  | refl => exact Relation.ReflTransGen.refl
  | tail hsteps hstep ih =>
    rename_i x y
    have hx : in_bounds x.1 x.2 = true := reach_in_bounds walls a x ha hsteps
    exact Relation.ReflTransGen.head (step_symm walls x y hx hstep) ih

/-! ## Python list-indexing facts -/

theorem pyGet_nonneg (l : List Position) (i : Int) (hi : 0 ≤ i) :
    pyGet l i = l.getD i.toNat ⟨0, 0⟩ := by
  simp [pyGet, hi]

theorem pySet_nonneg (l : List Position) (i : Int) (v : Position) (hi : 0 ≤ i) :
    pySet l i v = l.set i.toNat v := by
  simp [pySet, hi]

theorem pyGet_pySet_same (l : List Position) (i : Int) (v : Position)
    (hi : 0 ≤ i) (hlen : i.toNat < l.length) :
    pyGet (pySet l i v) i = v := by
  rw [pyGet_nonneg _ _ hi, pySet_nonneg _ _ _ hi]
  simp only [List.getD_eq_getElem?_getD]
  rw [List.getElem?_set_self (by simpa using hlen)]
  simp

theorem pyGet_pySet_ne (l : List Position) (i j : Int) (v : Position)
    (hi : 0 ≤ i) (hj : 0 ≤ j) (hij : i ≠ j) :
    pyGet (pySet l i v) j = pyGet l j := by
  rw [pyGet_nonneg _ _ hj, pyGet_nonneg _ _ hj, pySet_nonneg _ _ _ hi]
  simp only [List.getD_eq_getElem?_getD]
  rw [List.getElem?_set_ne (by omega)]

/-- Everything the BFS loop accepts is abstractly reachable: if the queue
holds only cells reachable from `start` and the loop returns `true`, some
reachable cell lies on a goal row. -/
theorem bfs_sound (walls : List WallKey) (goalRows : List Int) :
    ∀ (fuel : Nat) (q visited : List (Int × Int)) (start : Int × Int),
      (∀ x ∈ q, ReachRel walls start x) →
      bfs walls goalRows fuel q visited = true →
      ∃ cell, ReachRel walls start cell ∧ cell.1 ∈ goalRows := by
  intro fuel
  induction fuel with
  | zero =>
    intro q v start hq hb
    simp [bfs] at hb
  | succ n ih =>
    intro q v start hq hb
    match q with
    | [] => simp [bfs] at hb
    | (r, c) :: rest =>
      rw [bfs] at hb
      by_cases hg : r ∈ goalRows
      · exact ⟨(r, c), hq _ (List.mem_cons_self _ _), hg⟩
      · rw [if_neg hg] at hb
        refine ih _ _ start ?_ hb
        intro x hx
        rcases List.mem_append.mp hx with hx1 | hx2
        · exact hq x (List.mem_cons_of_mem _ hx1)
        · obtain ⟨d, hd, hxe⟩ := List.mem_filterMap.mp hx2
          dsimp only at hxe
          split at hxe
          · rename_i hcond
            obtain ⟨hbin, hbnb, _⟩ := hcond
            cases hxe
            exact Relation.ReflTransGen.tail (hq _ (List.mem_cons_self _ _))
              ⟨d, hd, rfl, by simpa using hbin, by simpa using hbnb⟩
          · simp at hxe

/-- If `_player_has_path` returns true, an abstract path to a goal row
exists. -/
theorem player_has_path_sound (s : GameState) (player : Int)
    (h : player_has_path s player = true) :
    ∃ cell, ReachRel s.walls (cellOf (pyGet s.pawns player)) cell ∧
      cell.1 ∈ goal_rows_for player := by
  unfold player_has_path at h
  dsimp only at h
  split at h
  · exact ⟨cellOf (pyGet s.pawns player), Relation.ReflTransGen.refl, by assumption⟩
  · exact bfs_sound s.walls (goal_rows_for player) 200 _ _ _
      (by
        intro x hx
        rw [List.mem_singleton.mp hx]
        exact Relation.ReflTransGen.refl) h

/-! ## Membership in `generate_wall_moves` -/

/-- A candidate accepted by `wallOk` has a fresh key and passed the
cloned-state path simulation. -/
theorem wallOk_elim (s : GameState) (r c : Int) (h : Bool)
    (hok : wallOk s r c h = true) :
    (r, c, h) ∉ s.walls ∧
    both_players_have_path { s with walls := wallsAdd s.walls (r, c, h) } = true := by
  unfold wallOk at hok
  dsimp only at hok
  split at hok
  · simp at hok
  · rename_i hnmem
    split at hok
    · simp at hok
    · split at hok
      · simp at hok
      · split at hok
        · simp at hok
        · exact ⟨hnmem, hok⟩

/-- A generated wall move passed every filter; in particular its key is new,
the pool is positive, and the cloned-state path simulation succeeded. -/
theorem generate_wall_moves_elim (s : GameState) (m : Move)
    (hm : m ∈ generate_wall_moves s) :
    ∃ r c h, m = Move.mkWall r c h ∧
      ¬ s.shared_walls_remaining ≤ 0 ∧
      (r, c, h) ∉ s.walls ∧
      both_players_have_path { s with walls := wallsAdd s.walls (r, c, h) } = true := by
  unfold generate_wall_moves at hm
  split at hm
  · simp at hm
  · rename_i hswr
    obtain ⟨rc, _, hmm⟩ := List.mem_flatMap.mp hm
    obtain ⟨h, _, heq⟩ := List.mem_filterMap.mp hmm
    split at heq
    · rename_i hok
      obtain ⟨hnmem, hpath⟩ := wallOk_elim s rc.1 rc.2 h (by simpa using hok)
      exact ⟨rc.1, rc.2, h, by simpa using heq.symm, hswr, hnmem, hpath⟩
    · simp at heq

theorem mem_existingV (walls : List WallKey) (r c : Int) :
    (r, c) ∈ existingV walls ↔ (r, c, false) ∈ walls := by
  unfold existingV
  rw [List.mem_filterMap]
  constructor
  · rintro ⟨⟨kr, kc, kh⟩, hk, heq⟩
    rcases kh with _ | _
    · simp only [Bool.false_eq_true, if_false, Option.some.injEq, Prod.mk.injEq] at heq
      obtain ⟨h1, h2⟩ := heq
      subst h1
      subst h2
      exact hk
    · simp at heq
  · intro hmem
    exact ⟨(r, c, false), hmem, by simp⟩

theorem mem_existingH (walls : List WallKey) (r c : Int) :
    (r, c) ∈ existingH walls ↔ (r, c, true) ∈ walls := by
  unfold existingH
  rw [List.mem_filterMap]
  constructor
  · rintro ⟨⟨kr, kc, kh⟩, hk, heq⟩
    rcases kh with _ | _
    · simp at heq
    · simp only [if_true, Option.some.injEq, Prod.mk.injEq] at heq
      obtain ⟨h1, h2⟩ := heq
      subst h1
      subst h2
      exact hk
  · intro hmem
    exact ⟨(r, c, true), hmem, by simp⟩

/-- A candidate accepted by `wallOk` additionally shares its anchor with no
existing wall (duplicate keys and crossings are both rejected). -/
theorem wallOk_elim_strong (s : GameState) (r c : Int) (h : Bool)
    (hok : wallOk s r c h = true) :
    (r, c, h) ∉ s.walls ∧
    (∀ k ∈ s.walls, ¬(k.1 = r ∧ k.2.1 = c)) ∧
    both_players_have_path { s with walls := wallsAdd s.walls (r, c, h) } = true := by
  unfold wallOk at hok
  dsimp only at hok
  split at hok
  · simp at hok
  · rename_i hnmem
    split at hok
    · simp at hok
    · rename_i hcross1
      split at hok
      · simp at hok
      · rename_i hcross2
        split at hok
        · simp at hok
        · refine ⟨hnmem, ?_, hok⟩
          rintro ⟨kr, kc, kh⟩ hk ⟨hkr, hkc⟩
          dsimp only at hkr hkc
          subst hkr
          subst hkc
          rcases kh with _ | _
          · rcases h with _ | _
            · exact hnmem hk
            · exact hcross1 ⟨rfl, (mem_existingV s.walls kr kc).mpr hk⟩
          · rcases h with _ | _
            · exact hcross2 ⟨by simp, (mem_existingH s.walls kr kc).mpr hk⟩
            · exact hnmem hk

theorem anchors_range : ∀ rc ∈ anchors, 0 ≤ rc.1 ∧ rc.1 ≤ 7 ∧ 0 ≤ rc.2 ∧ rc.2 ≤ 7 := by
  decide

/-- Strengthened elimination for generated wall moves. -/
theorem generate_wall_moves_elim2 (s : GameState) (m : Move)
    (hm : m ∈ generate_wall_moves s) :
    ∃ r c h, m = Move.mkWall r c h ∧
      ¬ s.shared_walls_remaining ≤ 0 ∧
      (0 ≤ r ∧ r ≤ 7 ∧ 0 ≤ c ∧ c ≤ 7) ∧
      (r, c, h) ∉ s.walls ∧
      (∀ k ∈ s.walls, ¬(k.1 = r ∧ k.2.1 = c)) ∧
      both_players_have_path { s with walls := wallsAdd s.walls (r, c, h) } = true := by
  unfold generate_wall_moves at hm
  split at hm
  · simp at hm
  · rename_i hswr
    obtain ⟨rc, hrc, hmm⟩ := List.mem_flatMap.mp hm
    obtain ⟨h, _, heq⟩ := List.mem_filterMap.mp hmm
    split at heq
    · rename_i hok
      obtain ⟨hnmem, hanch, hpath⟩ := wallOk_elim_strong s rc.1 rc.2 h (by simpa using hok)
      exact ⟨rc.1, rc.2, h, by simpa using heq.symm, hswr, anchors_range rc hrc,
        hnmem, hanch, hpath⟩
    · simp at heq

/-- The path simulation checks exactly players 0 and 1. -/
theorem both_players_have_path_elim (s : GameState)
    (h : both_players_have_path s = true) :
    player_has_path s 0 = true ∧ player_has_path s 1 = true := by
  simpa [both_players_have_path] using h

theorem dedupMoves_subset (l : List Move) (seen : List (Int × Int)) (m : Move)
    (hm : m ∈ dedupMoves l seen) : m ∈ l := by
  induction l generalizing seen with
  | nil => simp [dedupMoves] at hm
  | cons m2 rest ih =>
    unfold dedupMoves at hm
    match hd : m2.dest with
    | none =>
      rw [hd] at hm
      exact List.mem_cons_of_mem _ (ih seen hm)
    | some p =>
      rw [hd] at hm
      dsimp only at hm
      split at hm
      · exact List.mem_cons_of_mem _ (ih seen hm)
      · rcases List.mem_cons.mp hm with h1 | h1
        · rw [h1]
          exact List.mem_cons_self _ _
        · exact List.mem_cons_of_mem _ (ih _ h1)

/-- Every destination generated for one direction is wall-connected to the
mover's cell (via one or two unblocked steps), lies in bounds, and is not
the consulted opponent's cell. -/
theorem pawnMovesDir_dest_facts (walls : List WallKey) (my opp : Position)
    (d : Int × Int) (hd : d ∈ DIRS) (m : Move)
    (hm : m ∈ pawnMovesDir walls my opp d) (a b : Int)
    (heq : m = Move.mkPawn a b) :
    ReachRel walls (cellOf my) (a, b) ∧ in_bounds a b = true ∧
      ¬(a = opp.row ∧ b = opp.col) := by
  subst heq
  unfold pawnMovesDir at hm
  dsimp only at hm
  split at hm
  · simp at hm
  · rename_i hin1
    split at hm
    · simp at hm
    · rename_i hnb1
      have hin1b : in_bounds (my.row + d.1) (my.col + d.2) = true := by
        simpa using hin1
      have hnb1b : is_blocked walls my.row my.col d.1 d.2 = false := by
        simpa using hnb1
      have hstep1 : Step walls (cellOf my) (my.row + d.1, my.col + d.2) :=
        ⟨d, hd, rfl, hin1b, hnb1b⟩
      split at hm
      · rename_i hopp
        split at hm
        · rename_i hjump
          simp only [List.mem_singleton] at hm
          obtain ⟨ha, hb⟩ := mkPawn_inj hm
          subst ha
          subst hb
          refine ⟨?_, by simpa using hjump.1, ?_⟩
          · refine Relation.ReflTransGen.tail (Relation.ReflTransGen.single hstep1) ?_
            refine ⟨d, hd, rfl, by simpa using hjump.1, ?_⟩
            rw [hopp.1, hopp.2]
            simpa using hjump.2
          · rintro ⟨hr2, hc2⟩
            rw [← hopp.1] at hr2
            rw [← hopp.2] at hc2
            rcases dirs_shape d hd with rfl | rfl | rfl | rfl <;> simp at hr2 hc2
        · obtain ⟨dd, hdd, hsome⟩ := List.mem_filterMap.mp hm
          split at hsome
          · simp at hsome
          · rename_i hin2
            split at hsome
            · simp at hsome
            · rename_i hnb2
              obtain ⟨ha, hb⟩ := mkPawn_inj (Option.some.inj hsome)
              subst ha
              subst hb
              refine ⟨?_, by simpa using hin2, ?_⟩
              · refine Relation.ReflTransGen.tail (Relation.ReflTransGen.single hstep1) ?_
                refine ⟨(dd.1 - d.1, dd.2 - d.2), ?_, ?_, by simpa using hin2, ?_⟩
                · rcases dirs_shape d hd with rfl | rfl | rfl | rfl <;>
                    simp [diagOptions] at hdd <;>
                    rcases hdd with rfl | rfl <;> decide
                · refine Prod.ext_iff.mpr ⟨?_, ?_⟩ <;> dsimp only <;> ring
                · rw [← hopp.1, ← hopp.2] at hnb2
                  have e1 : my.row + dd.1 - (my.row + d.1) = dd.1 - d.1 := by ring
                  have e2 : my.col + dd.2 - (my.col + d.2) = dd.2 - d.2 := by ring
                  rw [e1, e2] at hnb2
                  simpa using hnb2
              · rintro ⟨hr2, hc2⟩
                rw [← hopp.1] at hr2
                rw [← hopp.2] at hc2
                rcases dirs_shape d hd with rfl | rfl | rfl | rfl <;>
                  simp [diagOptions] at hdd <;>
                  rcases hdd with rfl | rfl <;> simp at hr2 hc2
      · rename_i hopp
        simp only [List.mem_singleton] at hm
        obtain ⟨ha, hb⟩ := mkPawn_inj hm
        subst ha
        subst hb
        exact ⟨Relation.ReflTransGen.single hstep1, hin1b, by simpa using hopp⟩

/-- Destination facts lifted to `generate_pawn_moves`. -/
theorem generate_pawn_moves_facts (s : GameState) (a b : Int)
    (hm : Move.mkPawn a b ∈ generate_pawn_moves s) :
    ReachRel s.walls (cellOf (pyGet s.pawns s.current_player)) (a, b) ∧
    in_bounds a b = true ∧
    (a, b) ≠ cellOf (pyGet s.pawns (1 - s.current_player)) := by
  unfold generate_pawn_moves at hm
  dsimp only at hm
  have hm2 := dedupMoves_subset _ _ _ hm
  obtain ⟨d2, hd2, hmd⟩ := List.mem_flatMap.mp hm2
  obtain ⟨hr, hin, hnopp⟩ := pawnMovesDir_dest_facts _ _ _ d2 hd2 _ hmd a b rfl
  exact ⟨hr, hin, fun hcell =>
    hnopp ⟨congrArg Prod.fst hcell, congrArg Prod.snd hcell⟩⟩

/-! ## Effect of `apply_move` on fields -/

theorem apply_move_fields (s : GameState) (m : Move) :
    (apply_move s m).walls = (applyBranch s.clone m).walls ∧
    (apply_move s m).shared_walls_remaining =
      (applyBranch s.clone m).shared_walls_remaining ∧
    (apply_move s m).pawns = (applyBranch s.clone m).pawns ∧
    (apply_move s m).num_players = (applyBranch s.clone m).num_players := by
  unfold apply_move
  dsimp only
  split <;>
    exact ⟨check_winner_walls _, check_winner_swr _, check_winner_pawns _,
      check_winner_np _⟩

theorem GameState.clone_eq (s : GameState) : s.clone = s := rfl

theorem applyBranch_pawn (s : GameState) (a b : Int) :
    applyBranch s (Move.mkPawn a b) =
      { s with pawns := pySet s.pawns s.current_player ⟨a, b⟩ } := by
  unfold applyBranch
  rw [if_pos ⟨rfl, by simp [Move.mkPawn]⟩]
  rfl

theorem applyBranch_wall (s : GameState) (r c : Int) (h : Bool) :
    applyBranch s (Move.mkWall r c h) =
      { s with walls := wallsAdd s.walls (r, c, h)
               shared_walls_remaining := s.shared_walls_remaining - 1 } := by
  unfold applyBranch
  rw [if_neg (by simp [Move.mkWall]), if_pos ⟨rfl, by simp [Move.mkWall]⟩]
  rfl

theorem generate_pawn_moves_shape (s : GameState) (m : Move)
    (hm : m ∈ generate_pawn_moves s) : ∃ a b, m = Move.mkPawn a b := by
  unfold generate_pawn_moves at hm
  dsimp only at hm
  have hm2 := dedupMoves_subset _ _ _ hm
  obtain ⟨d2, _, hmd⟩ := List.mem_flatMap.mp hm2
  rcases pawnMovesDir_forms _ _ _ _ _ hmd with ⟨h1, _⟩ | ⟨_, ⟨h1, _⟩ | ⟨dd, _, h1⟩⟩
  · exact ⟨_, _, h1⟩
  · exact ⟨_, _, h1⟩
  · exact ⟨_, _, h1⟩

/-- A legal move carrying a wall payload comes from the wall generator. -/
theorem legal_wall_move_mem (s : GameState) (m : Move) (w : Wall)
    (hm : m ∈ legal_moves s) (hw : m.wall = some w) :
    m ∈ generate_wall_moves s := by
  unfold legal_moves at hm
  split at hm
  · simp at hm
  · rcases List.mem_append.mp hm with h1 | h1
    · obtain ⟨a, b, hab⟩ := generate_pawn_moves_shape s m h1
      rw [hab] at hw
      simp [Move.mkPawn] at hw
    · exact h1

/-! ## Helper facts for the reachability invariant -/

theorem pyGet_mem (l : List Position) (i : Int) (hi : 0 ≤ i)
    (hlen : i.toNat < l.length) : pyGet l i ∈ l := by
  rw [pyGet_nonneg _ _ hi, List.getD_eq_getElem?_getD, List.getElem?_eq_getElem hlen]
  exact List.getElem_mem ..

theorem apply_move_cp (s : GameState) (m : Move) :
    ((apply_move s m).winner = none →
      (apply_move s m).current_player = 1 - s.current_player) ∧
    ((apply_move s m).winner ≠ none →
      (apply_move s m).current_player = s.current_player) := by
  have hcpb : (applyBranch s.clone m).current_player = s.current_player := by
    unfold applyBranch
    split
    · rfl
    · split <;> rfl
  have hcp : ((applyBranch s.clone m).check_winner).current_player = s.current_player :=
    (check_winner_current_player _).trans hcpb
  unfold apply_move
  dsimp only
  rw [GameState.is_terminal]
  split
  · rename_i hterm
    simp only [ne_eq, decide_eq_true_eq, not_not] at hterm
    exact ⟨fun _ => hcp ▸ rfl, fun hne => absurd hterm hne⟩
  · rename_i hterm
    simp only [ne_eq, decide_eq_true_eq, not_not, not_forall] at hterm
    exact ⟨fun hnone => absurd hnone (by simpa using hterm), fun _ => hcp⟩

theorem apply_move_winner (s : GameState) (m : Move) :
    (apply_move s m).winner = ((applyBranch s.clone m).check_winner).winner := by
  unfold apply_move
  dsimp only
  split <;> rfl

/-- If the scan left `winner = None`, no pawn among indices `0..3` satisfies
its target condition. -/
theorem check_winner_none_hits (x : GameState)
    (hlen : x.pawns.length = 2 ∨ x.pawns.length = 4)
    (h : (x.check_winner).winner = none) :
    ∀ i : Nat, i < x.pawns.length →
      hitsTarget x.num_players i (x.pawns.getD i ⟨0, 0⟩) = false := by
  unfold GameState.check_winner at h
  split at h
  · rename_i hset
    exact absurd h hset
  · rename_i hset
    simp only [ne_eq, not_not] at hset
    dsimp only at h
    rw [hset] at h
    intro i hi
    rcases hlen with h2 | h4
    · obtain ⟨p0, p1, hp⟩ := List.length_eq_two.mp h2
      rw [hp] at h hi ⊢
      simp only [List.length_cons, List.length_nil] at hi
      simp only [List.enum, List.foldl, winnerStep_eq_hits] at h
      split_ifs at h
      rename_i hh1 hh0
      interval_cases i
      · simpa using hh0
      · simpa using hh1
    · obtain ⟨p0, p1, p2, p3, hp⟩ := list_length_eq_four h4
      rw [hp] at h hi ⊢
      simp only [List.length_cons, List.length_nil] at hi
      simp only [List.enum, List.foldl, winnerStep_eq_hits] at h
      split_ifs at h
      rename_i hh3 hh2 hh1 hh0
      interval_cases i
      · simpa using hh0
      · simpa using hh1
      · simpa using hh2
      · simpa using hh3

/-- On an empty board one can walk straight down. -/
theorem reach_down_free (r0 c : Int) (hin : in_bounds r0 c = true) :
    ∀ n : Nat, r0 + n ≤ 8 → ReachRel [] (r0, c) (r0 + n, c) := by
  intro n
  induction n with
  | zero =>
    intro _
    simpa using Relation.ReflTransGen.refl
  | succ k ih =>
    intro hle
    have hle2 : r0 + k ≤ 8 := by push_cast at hle ⊢; omega
    refine Relation.ReflTransGen.tail (ih hle2) ?_
    rw [in_bounds_iff] at hin
    refine ⟨(1, 0), by decide, ?_, ?_, rfl⟩
    · refine Prod.ext_iff.mpr ⟨?_, ?_⟩ <;> dsimp only <;> push_cast <;> omega
    · rw [in_bounds_iff]
      push_cast at hle
      refine ⟨by omega, by omega, hin.2.2⟩

/-- On an empty board one can walk straight up. -/
theorem reach_up_free (r0 c : Int) (hin : in_bounds r0 c = true) :
    ∀ n : Nat, (n : Int) ≤ r0 → ReachRel [] (r0, c) (r0 - n, c) := by
  intro n
  induction n with
  | zero =>
    intro _
    simpa using Relation.ReflTransGen.refl
  | succ k ih =>
    intro hle
    have hle2 : (k : Int) ≤ r0 := by push_cast at hle ⊢; omega
    refine Relation.ReflTransGen.tail (ih hle2) ?_
    rw [in_bounds_iff] at hin
    refine ⟨(-1, 0), by decide, ?_, ?_, rfl⟩
    · refine Prod.ext_iff.mpr ⟨?_, ?_⟩ <;> dsimp only <;> push_cast <;> omega
    · rw [in_bounds_iff]
      push_cast at hle
      refine ⟨by omega, by omega, hin.2.2⟩

/-- The invariant holds in every `new_game` state. -/
theorem new_game_invC5 (n : Int) (s : GameState) (h : new_game n = Except.ok s) :
    InvC5 s := by
  unfold new_game at h
  split at h
  · simp at h
  · rename_i hn
    have hn24 : n = 2 ∨ n = 4 := not_not.mp (by simpa using hn)
    dsimp only at h
    simp only [Except.ok.injEq] at h
    rcases hn24 with rfl | rfl
    · simp only [if_pos rfl] at h
      rw [← h]
      refine ⟨by decide, by decide, by decide, by decide,
        by intro _; unfold NoWinRow; decide, by unfold WallsValid; decide, ?_, ?_⟩
      · exact ⟨(8, 4), by
          have := reach_down_free 0 4 (by decide) 8 (by norm_num)
          simpa using this, by decide⟩
      · exact ⟨(0, 4), by
          have := reach_up_free 8 4 (by decide) 8 (by norm_num)
          simpa using this, by decide⟩
    · simp only [show ¬((4 : Int) = 2) from by decide, if_neg, if_false] at h
      rw [← h]
      refine ⟨by decide, by decide, by decide, by decide,
        by intro _; unfold NoWinRow; decide, by unfold WallsValid; decide, ?_, ?_⟩
      · exact ⟨(8, 4), by
          have := reach_down_free 0 4 (by decide) 8 (by norm_num)
          simpa using this, by decide⟩
      · exact ⟨(0, 8), by
          have := reach_up_free 4 8 (by decide) 4 (by norm_num)
          simpa using this, by decide⟩

theorem noWinRow_intro (t : GameState)
    (h0 : hitsTarget t.num_players 0 (t.pawns.getD 0 ⟨0, 0⟩) = false)
    (h1 : hitsTarget t.num_players 1 (t.pawns.getD 1 ⟨0, 0⟩) = false) :
    NoWinRow t := by
  unfold hitsTarget at h0 h1
  simp only [if_pos rfl] at h0
  simp only [show ¬((1 : Nat) = 0) from by decide, if_neg, if_false, if_pos rfl] at h1
  unfold NoWinRow
  rw [pyGet_nonneg _ _ (by norm_num), pyGet_nonneg _ _ (by norm_num)]
  by_cases hnp2 : t.num_players = 2
  · rw [if_pos hnp2] at h1
    refine ⟨by simpa using h0, fun _ => by simpa using h1, fun hnp4 => ?_⟩
    rw [hnp2] at hnp4
    simp at hnp4
  · rw [if_neg hnp2] at h1
    exact ⟨by simpa using h0, fun h2 => absurd h2 hnp2, fun _ => by simpa using h1⟩

/-- The C5 invariant is preserved by applying any legal move. -/
theorem invC5_step (s : GameState) (m : Move) (ih : InvC5 s)
    (hm : m ∈ legal_moves s) : InvC5 (apply_move s m) := by
  obtain ⟨hnp, hcp, hbnd, hdist, _, hwv, hp0, hp1⟩ := ih
  have hlen2 : 2 ≤ s.pawns.length := by
    rcases hnp with ⟨_, h⟩ | ⟨_, h⟩ <;> omega
  have hf := apply_move_fields s m
  rw [GameState.clone_eq] at hf
  have hwinner := apply_move_winner s m
  rw [GameState.clone_eq] at hwinner
  have hcpm := apply_move_cp s m
  have hcpgoal : (apply_move s m).current_player = 0 ∨
      (apply_move s m).current_player = 1 := by
    by_cases hw2 : (apply_move s m).winner = none
    · rw [hcpm.1 hw2]
      rcases hcp with h | h <;> rw [h] <;> norm_num
    · rw [hcpm.2 hw2]
      exact hcp
  unfold legal_moves at hm
  split at hm
  · simp at hm
  · rcases List.mem_append.mp hm with hpm | hwm
    · -- pawn move
      obtain ⟨a, b, hab⟩ := generate_pawn_moves_shape s m hpm
      subst hab
      obtain ⟨hreach, hinb, hnoppcell⟩ := generate_pawn_moves_facts s a b hpm
      have hb := applyBranch_pawn s a b
      have hpw : (apply_move s (Move.mkPawn a b)).pawns =
          pySet s.pawns s.current_player ⟨a, b⟩ := by
        rw [hf.2.2.1, hb]
      have hww : (apply_move s (Move.mkPawn a b)).walls = s.walls := by
        rw [hf.1, hb]
      have hnpw : (apply_move s (Move.mkPawn a b)).num_players = s.num_players := by
        rw [hf.2.2.2, hb]
      have hcp0le : (0 : Int) ≤ s.current_player := by
        rcases hcp with h | h <;> omega
      have hcplt : s.current_player.toNat < s.pawns.length := by
        rcases hcp with h | h <;> rw [h] <;> simpa using by omega
      have hlenp : (pySet s.pawns s.current_player ⟨a, b⟩).length = s.pawns.length := by
        rw [pySet_nonneg _ _ _ hcp0le]
        simp
      have hmyin : in_bounds (pyGet s.pawns s.current_player).row
          (pyGet s.pawns s.current_player).col = true :=
        hbnd _ (pyGet_mem s.pawns s.current_player hcp0le hcplt)
      have hreach2 : ReachRel s.walls (a, b)
          (cellOf (pyGet s.pawns s.current_player)) :=
        reach_symm _ _ _ (by simpa [cellOf] using hmyin) hreach
      refine ⟨?_, hcpgoal, ?_, ?_, ?_, ?_, ?_, ?_⟩
      · rw [hnpw, hpw, hlenp]
        exact hnp
      · rw [hpw]
        intro p hp
        rw [pySet_nonneg _ _ _ hcp0le] at hp
        rcases List.mem_or_eq_of_mem_set hp with h2 | h2
        · exact hbnd p h2
        · rw [h2]
          exact hinb
      · rw [hpw]
        rcases hcp with hc | hc
        · rw [hc]
          rw [pyGet_pySet_same _ _ _ (by norm_num) (by rw [hc] at hcplt; simpa using hcplt),
            pyGet_pySet_ne _ _ _ _ (by norm_num) (by norm_num) (by norm_num)]
          intro he
          apply hnoppcell
          rw [hc]
          norm_num
          rw [← he]
          rfl
        · rw [hc]
          rw [pyGet_pySet_same _ _ _ (by norm_num) (by rw [hc] at hcplt; simpa using hcplt),
            pyGet_pySet_ne _ _ _ _ (by norm_num) (by norm_num) (by norm_num)]
          intro he
          apply hnoppcell
          rw [hc]
          norm_num
          rw [he]
          rfl
      · intro hwn
        have hx := check_winner_none_hits (applyBranch s (Move.mkPawn a b))
          (by
            rw [hb]
            dsimp only
            rw [hlenp]
            rcases hnp with ⟨_, h⟩ | ⟨_, h⟩ <;> omega)
          (by rw [← hwinner]; exact hwn)
        have hlenx : (applyBranch s (Move.mkPawn a b)).pawns.length = s.pawns.length := by
          rw [hb]
          dsimp only
          exact hlenp
        refine noWinRow_intro _ ?_ ?_
        · have := hx 0 (by omega)
          rw [hb] at this
          dsimp only at this
          rw [hpw, hnpw]
          exact this
        · have := hx 1 (by omega)
          rw [hb] at this
          dsimp only at this
          rw [hpw, hnpw]
          exact this
      · rw [hww]
        exact hwv
      · -- HasPathA 0
        unfold HasPathA
        rw [hpw, hww]
        rcases hcp with hc | hc
        · rw [hc, pyGet_pySet_same _ _ _ (by norm_num)
            (by rw [hc] at hcplt; simpa using hcplt)]
          obtain ⟨cell, hcr, hcg⟩ := hp0
          rw [hc] at hreach2
          exact ⟨cell, Relation.ReflTransGen.trans (by simpa [cellOf] using hreach2) hcr, hcg⟩
        · rw [hc, pyGet_pySet_ne _ _ _ _ (by norm_num) (by norm_num) (by norm_num)]
          exact hp0
      · -- HasPathA 1
        unfold HasPathA
        rw [hpw, hww]
        rcases hcp with hc | hc
        · rw [hc, pyGet_pySet_ne _ _ _ _ (by norm_num) (by norm_num) (by norm_num)]
          exact hp1
        · rw [hc, pyGet_pySet_same _ _ _ (by norm_num)
            (by rw [hc] at hcplt; simpa using hcplt)]
          obtain ⟨cell, hcr, hcg⟩ := hp1
          rw [hc] at hreach2
          exact ⟨cell, Relation.ReflTransGen.trans (by simpa [cellOf] using hreach2) hcr, hcg⟩
    · -- wall move
      obtain ⟨r, c, horiz, hmw, _, hrange, hnmem, hanch, hpath⟩ :=
        generate_wall_moves_elim2 s m hwm
      subst hmw
      have hb := applyBranch_wall s r c horiz
      have hpw : (apply_move s (Move.mkWall r c horiz)).pawns = s.pawns := by
        rw [hf.2.2.1, hb]
      have hww : (apply_move s (Move.mkWall r c horiz)).walls =
          wallsAdd s.walls (r, c, horiz) := by
        rw [hf.1, hb]
      have hnpw : (apply_move s (Move.mkWall r c horiz)).num_players = s.num_players := by
        rw [hf.2.2.2, hb]
      obtain ⟨hph0, hph1⟩ := both_players_have_path_elim _ hpath
      obtain ⟨c0, hr0, hg0⟩ := player_has_path_sound _ 0 hph0
      obtain ⟨c1, hr1, hg1⟩ := player_has_path_sound _ 1 hph1
      refine ⟨?_, hcpgoal, ?_, ?_, ?_, ?_, ?_, ?_⟩
      · rw [hnpw, hpw]
        exact hnp
      · rw [hpw]
        exact hbnd
      · rw [hpw]
        exact hdist
      · intro hwn
        have hx := check_winner_none_hits (applyBranch s (Move.mkWall r c horiz))
          (by
            rw [hb]
            dsimp only
            rcases hnp with ⟨_, h⟩ | ⟨_, h⟩ <;> omega)
          (by rw [← hwinner]; exact hwn)
        have hlenx : (applyBranch s (Move.mkWall r c horiz)).pawns.length =
            s.pawns.length := by
          rw [hb]
        refine noWinRow_intro _ ?_ ?_
        · have := hx 0 (by omega)
          rw [hb] at this
          dsimp only at this
          rw [hpw, hnpw]
          exact this
        · have := hx 1 (by omega)
          rw [hb] at this
          dsimp only at this
          rw [hpw, hnpw]
          exact this
      · rw [hww]
        unfold wallsAdd
        rw [if_neg hnmem]
        constructor
        · intro k hk
          rcases List.mem_append.mp hk with h2 | h2
          · exact hwv.1 k h2
          · rw [List.mem_singleton.mp h2]
            refine ⟨hrange.1, ?_, hrange.2.2.1, ?_⟩ <;>
              simp [BOARD_SIZE] <;> omega
        · intro k1 hk1 k2 hk2 he1 he2
          rcases List.mem_append.mp hk1 with h2 | h2 <;>
            rcases List.mem_append.mp hk2 with h3 | h3
          · exact hwv.2 k1 h2 k2 h3 he1 he2
          · rw [List.mem_singleton.mp h3] at he1 he2 ⊢
            exact absurd ⟨he1, he2⟩ (hanch k1 h2)
          · rw [List.mem_singleton.mp h2] at he1 he2 ⊢
            exact absurd ⟨he1.symm, he2.symm⟩ (hanch k2 h3)
          · rw [List.mem_singleton.mp h2, List.mem_singleton.mp h3]
      · unfold HasPathA
        rw [hpw, hww]
        exact ⟨c0, hr0, hg0⟩
      · unfold HasPathA
        rw [hpw, hww]
        exact ⟨c1, hr1, hg1⟩

theorem reachable_invC5 (s : GameState) (hs : Reachable s) : InvC5 s := by
  induction hs with
  | base n s h => exact new_game_invC5 n s h
  | step s m _ hm ih => exact invC5_step s m ih hm

/-- `dedupMoves` starting from an empty seen-set only returns the empty list
on empty input (when all inputs are canonical pawn moves). -/
theorem dedupMoves_nil (l : List Move)
    (hl : ∀ m ∈ l, ∃ a b, m = Move.mkPawn a b)
    (h : dedupMoves l [] = []) : l = [] := by
  match l with
  | [] => rfl
  | m :: rest =>
    obtain ⟨a, b, hm⟩ := hl m (List.mem_cons_self m rest)
    subst hm
    rw [dedupMoves_cons_pawn, if_neg (by simp)] at h
    simp at h

/-- An empty per-direction move list pins down which guard failed. -/
theorem pawnMovesDir_nil (walls : List WallKey) (my opp : Position) (d : Int × Int)
    (h : pawnMovesDir walls my opp d = []) :
    ¬ in_bounds (my.row + d.1) (my.col + d.2) = true ∨
    is_blocked walls my.row my.col d.1 d.2 = true ∨
    ((my.row + d.1 = opp.row ∧ my.col + d.2 = opp.col) ∧
      ¬(in_bounds (my.row + d.1 + d.1) (my.col + d.2 + d.2) = true ∧
        is_blocked walls opp.row opp.col d.1 d.2 = false) ∧
      (∀ dd ∈ diagOptions d,
        ¬ in_bounds (my.row + dd.1) (my.col + dd.2) = true ∨
        is_blocked walls opp.row opp.col (my.row + dd.1 - opp.row)
          (my.col + dd.2 - opp.col) = true)) := by
  unfold pawnMovesDir at h
  dsimp only at h
  split at h
  · rename_i hcond
    exact Or.inl (by simpa using hcond)
  · split at h
    · rename_i hcond
      exact Or.inr (Or.inl (by simpa using hcond))
    · split at h
      · rename_i hopp
        split at h
        · simp at h
        · rename_i hjf
          refine Or.inr (Or.inr ⟨hopp, ?_, ?_⟩)
          · intro hc
            exact hjf ⟨hc.1, by simp [hc.2]⟩
          · intro dd hdd
            have hnone := (List.filterMap_eq_nil_iff.mp h) dd hdd
            split at hnone
            · rename_i hcond
              exact Or.inl (by simpa using hcond)
            · split at hnone
              · rename_i hcond
                exact Or.inr (by simpa using hcond)
              · simp at hnone
      · simp at h

/-- A pawn standing on row 0 can never have its left, right and down exits
all wall-blocked: the forced wall anchors would cross. -/
theorem row0_not_sealed (walls : List WallKey) (hwv : WallsValid walls) (mc : Int)
    (hdown : is_blocked walls 0 mc 1 0 = true)
    (hleft : 1 ≤ mc → is_blocked walls 0 mc 0 (-1) = true)
    (hright : mc ≤ 7 → is_blocked walls 0 mc 0 1 = true) : False := by
  obtain ⟨kH, hkH, hbH⟩ := List.any_eq_true.mp hdown
  rcases kH with ⟨hr, hcc, hh⟩
  rcases hh with _ | _
  · simp [wallBlocks] at hbH
  · simp [wallBlocks] at hbH
    obtain ⟨hr0, hdisj⟩ := hbH
    subst hr0
    have hHrange := hwv.1 _ hkH
    have hvert : ((0 : Int), hcc, false) ∈ walls := by
      rcases hdisj with hmc | hmc
      · subst hmc
        obtain ⟨kV, hkV, hbV⟩ := List.any_eq_true.mp
          (hright (by simpa [BOARD_SIZE] using hHrange.2.2.2))
        rcases kV with ⟨vr, vc, vh⟩
        rcases vh with _ | _
        · simp [wallBlocks] at hbV
          obtain ⟨hvc, hvr⟩ := hbV
          have hVrange := hwv.1 _ hkV
          have hvr0 : vr = 0 := by
            rcases hvr with h | h
            · omega
            · have := hVrange.1
              dsimp only at this
              omega
          subst hvc
          subst hvr0
          exact hkV
        · simp [wallBlocks] at hbV
      · obtain ⟨kV, hkV, hbV⟩ := List.any_eq_true.mp
          (hleft (by
            have := hHrange.2.2.1
            dsimp only at this
            omega))
        rcases kV with ⟨vr, vc, vh⟩
        rcases vh with _ | _
        · simp [wallBlocks] at hbV
          obtain ⟨hvc, hvr⟩ := hbV
          have hVrange := hwv.1 _ hkV
          have hvr0 : vr = 0 := by
            rcases hvr with h | h
            · omega
            · have := hVrange.1
              dsimp only at this
              omega
          have hvceq : vc = hcc := by omega
          subst hvceq
          subst hvr0
          exact hkV
        · simp [wallBlocks] at hbV
    have hcontr := hwv.2 (0, hcc, true) hkH (0, hcc, false) hvert rfl rfl
    simp at hcontr

/-- In a state satisfying the invariant with no winner, the current player
always has at least one pawn move: otherwise the two-cell (or one-cell)
pocket around the mover would be closed under unblocked steps, and the path
invariants for players 0 and 1 would force a row-8 cell and a row-0 cell
into a set of at most two orthogonally adjacent cells. -/
theorem pawn_moves_nonempty (s : GameState) (inv : InvC5 s)
    (hwn : s.winner = none) : generate_pawn_moves s ≠ [] := by
  intro hempty
  obtain ⟨hnp, hcp, hbnd, _, hwinf, hwv, hp0, hp1⟩ := inv
  have hnow := hwinf hwn
  have hcp0le : (0 : Int) ≤ s.current_player := by
    rcases hcp with h | h <;> omega
  have hcplt : s.current_player.toNat < s.pawns.length := by
    rcases hnp with ⟨_, hl⟩ | ⟨_, hl⟩ <;> rcases hcp with h | h <;> rw [h] <;> omega
  have hoth0le : (0 : Int) ≤ 1 - s.current_player := by
    rcases hcp with h | h <;> omega
  have hothlt : (1 - s.current_player).toNat < s.pawns.length := by
    rcases hnp with ⟨_, hl⟩ | ⟨_, hl⟩ <;> rcases hcp with h | h <;> rw [h] <;> simp <;> omega
  unfold generate_pawn_moves at hempty
  dsimp only at hempty
  set my := pyGet s.pawns s.current_player with hmy
  set opp := pyGet s.pawns (1 - s.current_player) with hopp
  have hmyin : in_bounds my.row my.col = true :=
    hbnd _ (pyGet_mem _ _ hcp0le hcplt)
  have hflat : DIRS.flatMap (pawnMovesDir s.walls my opp) = [] := by
    refine dedupMoves_nil _ (fun m hm2 => ?_) hempty
    obtain ⟨d2, _, hmd⟩ := List.mem_flatMap.mp hm2
    rcases pawnMovesDir_forms _ _ _ _ _ hmd with ⟨h1, _⟩ | ⟨_, ⟨h1, _⟩ | ⟨dd, _, h1⟩⟩
    · exact ⟨_, _, h1⟩
    · exact ⟨_, _, h1⟩
    · exact ⟨_, _, h1⟩
  have hdirs := List.flatMap_eq_nil_iff.mp hflat
  have hfacts := fun d hd => pawnMovesDir_nil s.walls my opp d (hdirs d hd)
  by_cases hopen : ∃ d ∈ DIRS, in_bounds (my.row + d.1) (my.col + d.2) = true ∧
      is_blocked s.walls my.row my.col d.1 d.2 = false
  · obtain ⟨d0, hd0, hoin, honb⟩ := hopen
    have hthird := hfacts d0 hd0
    rcases hthird with h | h | hthird
    · exact absurd hoin h
    · rw [honb] at h
      simp at h
    obtain ⟨hoppadj, hjdead, hddead⟩ := hthird
    have hclosed : ∀ x ∈ [cellOf my, cellOf opp], ∀ d ∈ DIRS,
        in_bounds (x.1 + d.1) (x.2 + d.2) = true →
        is_blocked s.walls x.1 x.2 d.1 d.2 = false →
        (x.1 + d.1, x.2 + d.2) ∈ [cellOf my, cellOf opp] := by
      intro x hx d hd hbin hbnb
      rcases List.mem_cons.mp hx with hx1 | hx1
      · subst hx1
        dsimp only [cellOf] at hbin hbnb ⊢
        rcases hfacts d hd with h | h | h
        · exact absurd hbin h
        · rw [h] at hbnb
          simp at hbnb
        · have he : ((my.row + d.1, my.col + d.2) : Int × Int) = cellOf opp := by
            refine Prod.ext_iff.mpr ⟨?_, ?_⟩ <;> dsimp only [cellOf]
            · exact h.1.1
            · exact h.1.2
          rw [he]
          exact List.mem_cons_of_mem _ (List.mem_cons_self _ _)
      · have hx2 := List.mem_singleton.mp hx1
        subst hx2
        dsimp only [cellOf] at hbin hbnb ⊢
        have htri : d = d0 ∨ (d.1 = -d0.1 ∧ d.2 = -d0.2) ∨
            ((d0.1 + d.1, d0.2 + d.2) ∈ diagOptions d0) := by
          rcases dirs_shape d hd with rfl | rfl | rfl | rfl <;>
            rcases dirs_shape d0 hd0 with rfl | rfl | rfl | rfl <;> decide
        rcases htri with rfl | hneg | hperp
        · exfalso
          apply hjdead
          rw [← hoppadj.1, ← hoppadj.2] at hbin
          exact ⟨hbin, hbnb⟩
        · have he : ((opp.row + d.1, opp.col + d.2) : Int × Int) = cellOf my := by
            refine Prod.ext_iff.mpr ⟨?_, ?_⟩
            · dsimp only [cellOf]
              rw [← hoppadj.1]
              omega
            · dsimp only [cellOf]
              rw [← hoppadj.2]
              omega
          rw [he]
          exact List.mem_cons_self _ _
        · exfalso
          rcases hddead _ hperp with h | h
          · apply h
            dsimp only at *
            have e1 : my.row + (d0.1 + d.1) = opp.row + d.1 := by
              rw [← hoppadj.1]
              ring
            have e2 : my.col + (d0.2 + d.2) = opp.col + d.2 := by
              rw [← hoppadj.2]
              ring
            rw [e1, e2]
            exact hbin
          · dsimp only at h
            have e1 : my.row + (d0.1 + d.1) - opp.row = d.1 := by
              rw [← hoppadj.1]
              ring
            have e2 : my.col + (d0.2 + d.2) - opp.col = d.2 := by
              rw [← hoppadj.2]
              ring
            rw [e1, e2] at h
            rw [hbnb] at h
            simp at h
    obtain ⟨c0, hr0, hg0⟩ := hp0
    obtain ⟨c1, hr1, hg1⟩ := hp1
    have hg0r : c0.1 = 8 := by
      simpa [goal_rows_for, BOARD_SIZE] using hg0
    have hg1r : c1.1 = 0 := by
      simpa [goal_rows_for] using hg1
    have hc0S : c0 ∈ [cellOf my, cellOf opp] := by
      rcases hcp with hcp' | hcp'
      · refine reach_subset_closed _ _ hclosed _ _ (List.mem_cons_self _ _) ?_
        have he : cellOf (pyGet s.pawns 0) = cellOf my := by
          rw [hmy, hcp']
        rw [← he]
        exact hr0
      · refine reach_subset_closed _ _ hclosed _ _
          (List.mem_cons_of_mem _ (List.mem_cons_self _ _)) ?_
        have he : cellOf (pyGet s.pawns 0) = cellOf opp := by
          rw [hopp, hcp']
          norm_num
        rw [← he]
        exact hr0
    have hc1S : c1 ∈ [cellOf my, cellOf opp] := by
      rcases hcp with hcp' | hcp'
      · refine reach_subset_closed _ _ hclosed _ _
          (List.mem_cons_of_mem _ (List.mem_cons_self _ _)) ?_
        have he : cellOf (pyGet s.pawns 1) = cellOf opp := by
          rw [hopp, hcp']
          norm_num
        rw [← he]
        exact hr1
      · refine reach_subset_closed _ _ hclosed _ _ (List.mem_cons_self _ _) ?_
        have he : cellOf (pyGet s.pawns 1) = cellOf my := by
          rw [hmy, hcp']
        rw [← he]
        exact hr1
    have hd0unit : d0.1 = -1 ∨ d0.1 = 0 ∨ d0.1 = 1 := by
      rcases dirs_shape d0 hd0 with rfl | rfl | rfl | rfl <;> simp
    have hadj : opp.row = my.row + d0.1 := hoppadj.1.symm
    have hrow8 : my.row = 8 ∨ opp.row = 8 := by
      rcases List.mem_cons.mp hc0S with h | h
      · left
        rw [h] at hg0r
        exact hg0r
      · right
        rw [List.mem_singleton.mp h] at hg0r
        exact hg0r
    have hrow0 : my.row = 0 ∨ opp.row = 0 := by
      rcases List.mem_cons.mp hc1S with h | h
      · left
        rw [h] at hg1r
        exact hg1r
      · right
        rw [List.mem_singleton.mp h] at hg1r
        exact hg1r
    omega
  · push_neg at hopen
    have hblocked : ∀ d ∈ DIRS, in_bounds (my.row + d.1) (my.col + d.2) = true →
        is_blocked s.walls my.row my.col d.1 d.2 = true := by
      intro d hd hin
      have := hopen d hd hin
      simpa using this
    have hclosed : ∀ x ∈ [cellOf my], ∀ d ∈ DIRS,
        in_bounds (x.1 + d.1) (x.2 + d.2) = true →
        is_blocked s.walls x.1 x.2 d.1 d.2 = false →
        (x.1 + d.1, x.2 + d.2) ∈ [cellOf my] := by
      intro x hx d hd hbin hbnb
      rw [List.mem_singleton.mp hx] at hbin hbnb
      dsimp only [cellOf] at hbin hbnb
      rw [hblocked d hd hbin] at hbnb
      simp at hbnb
    have hmybound := in_bounds_iff my.row my.col |>.mp hmyin
    rcases hcp with hcp' | hcp'
    · obtain ⟨c0, hr0, hg0⟩ := hp0
      have hg0r : c0.1 = 8 := by
        simpa [goal_rows_for, BOARD_SIZE] using hg0
      have hc0S : c0 ∈ [cellOf my] := by
        refine reach_subset_closed _ _ hclosed _ _ (List.mem_cons_self _ _) ?_
        have he : cellOf (pyGet s.pawns 0) = cellOf my := by
          rw [hmy, hcp']
        rw [← he]
        exact hr0
      have h1 : c0 = cellOf (pyGet s.pawns 0) := by
        rw [List.mem_singleton.mp hc0S, hmy, hcp']
      rw [h1] at hg0r
      apply hnow.1
      rw [show BOARD_SIZE - 1 = (8 : Int) from by norm_num [BOARD_SIZE]]
      simpa [cellOf] using hg0r
    · obtain ⟨c1, hr1, hg1⟩ := hp1
      have hg1r : c1.1 = 0 := by
        simpa [goal_rows_for] using hg1
      have hc1S : c1 ∈ [cellOf my] := by
        refine reach_subset_closed _ _ hclosed _ _ (List.mem_cons_self _ _) ?_
        have he : cellOf (pyGet s.pawns 1) = cellOf my := by
          rw [hmy, hcp']
        rw [← he]
        exact hr1
      have hmyrow0 : my.row = 0 := by
        rw [List.mem_singleton.mp hc1S] at hg1r
        exact hg1r
      rcases hnp with ⟨hnp2, _⟩ | ⟨hnp4, _⟩
      · apply hnow.2.1 hnp2
        rw [← hcp', ← hmy]
        exact hmyrow0
      · refine row0_not_sealed s.walls hwv my.col ?_ ?_ ?_
        · have := hblocked (1, 0) (by decide)
            (by rw [in_bounds_iff]; dsimp only; omega)
          rw [hmyrow0] at this
          exact this
        · intro hge1
          have := hblocked (0, -1) (by decide)
            (by rw [in_bounds_iff]; dsimp only; omega)
          rw [hmyrow0] at this
          exact this
        · intro hle7
          have := hblocked (0, 1) (by decide)
            (by rw [in_bounds_iff]; dsimp only; omega)
          rw [hmyrow0] at this
          exact this

/-! ## C5 — legal moves empty iff terminal -/

/-- C5: on every reachable state, `legal_moves` returns the empty list
exactly when a winner is present. -/
theorem c5_legal_moves_iff_terminal (s : GameState) (hs : Reachable s) :
    legal_moves s = [] ↔ s.winner ≠ none := by
  constructor
  · intro hemp
    by_contra hwn
    have hwn2 : s.winner = none := hwn
    have hne := pawn_moves_nonempty s (reachable_invC5 s hs) hwn2
    unfold legal_moves at hemp
    split at hemp
    · rename_i hterm
      rw [GameState.is_terminal] at hterm
      exact (by simpa using hterm : s.winner ≠ none) hwn2
    · exact hne (List.append_eq_nil.mp hemp).1
  · intro hw
    unfold legal_moves
    rw [if_pos (by simpa [GameState.is_terminal] using hw)]

/-- Witness for C5 at the reachable initial 2-player state. -/
theorem c5_legal_moves_iff_terminal_witness :
    legal_moves init2 = [] ↔ init2.winner ≠ none :=
  c5_legal_moves_iff_terminal init2 (Reachable.base 2 init2 rfl)

/-! ## C1 — wall moves and goal-line connectivity -/

/-- The candidate wall H(5,0) is generated in `cex1` (it passes the
duplicate, crossing, overlap and players-0/1 path checks). -/
theorem c1_wall_is_generated : Move.mkWall 5 0 true ∈ generate_wall_moves cex1 := by
  unfold generate_wall_moves
  rw [if_neg (by decide)]
  refine List.mem_flatMap.mpr ⟨((5 : Int), (0 : Int)), by decide, ?_⟩
  refine List.mem_filterMap.mpr ⟨true, by decide, ?_⟩
  have hok : wallOk cex1 5 0 true = true := by decide
  simp [hok]

/-- Counterexample for C1: the wall move H(5,0) is generated in the 4-player
state `cex1`, yet after placing it player 3's pawn at (4,0) is sealed in the
pocket {(4,0),(5,0)} and has no path to its goal line (column 8), so not
every player keeps a path to their own §4.1 goal line. -/
theorem c1_counterexample :
    Move.mkWall 5 0 true ∈ generate_wall_moves cex1 ∧
    ¬ (∀ i : Int, 0 ≤ i → i < cex1.num_players →
        SpecHasPath (wallsAdd cex1.walls (5, 0, true))
          (cellOf (pyGet cex1.pawns i)) (specGoalCell cex1.num_players i)) := by
  refine ⟨c1_wall_is_generated, ?_⟩
  intro hall
  obtain ⟨cell, hreach, hgoal⟩ := hall 3 (by decide) (by decide)
  have hsub : cell ∈ [((4 : Int), (0 : Int)), (5, 0)] := by
    refine reach_subset_closed _ _ ?_ _ _ (by decide) hreach
    decide
  rcases List.mem_cons.mp hsub with h1 | h1
  · rw [h1] at hgoal
    simp [specGoalCell, cex1, BOARD_SIZE] at hgoal
  · rw [List.mem_singleton.mp h1] at hgoal
    simp [specGoalCell, cex1, BOARD_SIZE] at hgoal

/-- C1 amended: every wall move returned by `generate_wall_moves` preserves
a path for player 0 to the last row and for player 1 to the first row (the
code's `_goal_rows_for`, regardless of player count); players 2 and 3 are
not checked at all. -/
theorem c1_wall_moves_keep_paths (s : GameState) (m : Move) (w : Wall)
    (hm : m ∈ generate_wall_moves s) (hw : m.wall = some w) :
    SpecHasPath (wallsAdd s.walls w.key) (cellOf (pyGet s.pawns 0))
      (fun cell => decide (cell.1 = BOARD_SIZE - 1)) ∧
    SpecHasPath (wallsAdd s.walls w.key) (cellOf (pyGet s.pawns 1))
      (fun cell => decide (cell.1 = 0)) := by
  obtain ⟨r, c, h, hmw, _, _, hpath⟩ := generate_wall_moves_elim s m hm
  have hwk : w.key = (r, c, h) := by
    rw [hmw] at hw
    simp only [Move.mkWall] at hw
    cases hw
    rfl
  obtain ⟨h0, h1⟩ := both_players_have_path_elim _ hpath
  obtain ⟨c0, hr0, hg0⟩ := player_has_path_sound _ 0 h0
  obtain ⟨c1, hr1, hg1⟩ := player_has_path_sound _ 1 h1
  rw [hwk]
  constructor
  · exact ⟨c0, hr0, by simpa [goal_rows_for] using hg0⟩
  · exact ⟨c1, hr1, by simpa [goal_rows_for] using hg1⟩

/-- Witness for C1's amended theorem at the state `cex1` and the generated
wall H(5,0). -/
theorem c1_wall_moves_keep_paths_witness :
    SpecHasPath (wallsAdd cex1.walls (Wall.key ⟨5, 0, true⟩))
      (cellOf (pyGet cex1.pawns 0)) (fun cell => decide (cell.1 = BOARD_SIZE - 1)) ∧
    SpecHasPath (wallsAdd cex1.walls (Wall.key ⟨5, 0, true⟩))
      (cellOf (pyGet cex1.pawns 1)) (fun cell => decide (cell.1 = 0)) :=
  c1_wall_moves_keep_paths cex1 (Move.mkWall 5 0 true) ⟨5, 0, true⟩
    c1_wall_is_generated rfl

/-! ## C7 — wall accounting -/

theorem new_game_invC7 (n : Int) (s : GameState) (h : new_game n = Except.ok s) :
    InvC7 s := by
  unfold new_game at h
  split at h
  · simp at h
  · dsimp only at h
    simp only [Except.ok.injEq] at h
    rw [← h]
    constructor
    · dsimp only
      split <;> norm_num [TOTAL_SHARED_WALLS, MAX_WALLS_PER_PLAYER]
    · simp

theorem reachable_invC7 (s : GameState) (hs : Reachable s) : InvC7 s := by
  induction hs with
  | base n s hng => exact new_game_invC7 n s hng
  | step s m hr hm ih =>
    obtain ⟨hswr, hnd⟩ := ih
    have hf := apply_move_fields s m
    rw [GameState.clone_eq] at hf
    unfold legal_moves at hm
    split at hm
    · simp at hm
    · rcases List.mem_append.mp hm with h1 | h1
      · obtain ⟨a, b, hab⟩ := generate_pawn_moves_shape s m h1
        subst hab
        have hb := applyBranch_pawn s a b
        constructor
        · rw [hf.2.1, hb]
          exact hswr
        · rw [hf.1, hb]
          exact hnd
      · obtain ⟨r, c, hmh, hmw, hpos, hnmem, _⟩ := generate_wall_moves_elim s m h1
        subst hmw
        have hb := applyBranch_wall s r c hmh
        constructor
        · rw [hf.2.1, hb]
          dsimp only
          omega
        · rw [hf.1, hb]
          dsimp only
          unfold wallsAdd
          rw [if_neg hnmem, List.nodup_append]
          refine ⟨hnd, List.nodup_singleton _, ?_⟩
          intro x hx hx2
          rw [List.mem_singleton.mp hx2] at hx
          exact hnmem hx

/-- C7: on every reachable state the shared pool is non-negative, the wall
set is duplicate-free, no wall moves are generated once the pool is
exhausted, and applying any legal wall move decrements the pool by exactly 1
while inserting a key that was not yet in the wall set. -/
theorem c7_wall_accounting (s : GameState) (hs : Reachable s) :
    0 ≤ s.shared_walls_remaining ∧
    s.walls.Nodup ∧
    (s.shared_walls_remaining ≤ 0 → generate_wall_moves s = []) ∧
    (∀ m ∈ legal_moves s, ∀ w : Wall, m.wall = some w →
      (apply_move s m).shared_walls_remaining = s.shared_walls_remaining - 1 ∧
      w.key ∉ s.walls) := by
  obtain ⟨hswr, hnd⟩ := reachable_invC7 s hs
  refine ⟨hswr, hnd, ?_, ?_⟩
  · intro hle
    unfold generate_wall_moves
    rw [if_pos hle]
  · intro m hm w hw
    have hwm := legal_wall_move_mem s m w hm hw
    obtain ⟨r, c, hmh, hmw, _, hnmem, _⟩ := generate_wall_moves_elim s m hwm
    have hwkey : w = ⟨r, c, hmh⟩ := by
      rw [hmw] at hw
      simpa [Move.mkWall] using hw.symm
    subst hmw
    have hf := apply_move_fields s (Move.mkWall r c hmh)
    rw [GameState.clone_eq] at hf
    have hb := applyBranch_wall s r c hmh
    constructor
    · rw [hf.2.1, hb]
    · rw [hwkey]
      exact hnmem

/-- Witness for C7 at the reachable initial 2-player state. -/
theorem c7_wall_accounting_witness :
    0 ≤ init2.shared_walls_remaining ∧
    init2.walls.Nodup ∧
    (init2.shared_walls_remaining ≤ 0 → generate_wall_moves init2 = []) ∧
    (∀ m ∈ legal_moves init2, ∀ w : Wall, m.wall = some w →
      (apply_move init2 m).shared_walls_remaining =
        init2.shared_walls_remaining - 1 ∧
      w.key ∉ init2.walls) :=
  c7_wall_accounting init2 (Reachable.base 2 init2 rfl)

/-! ## C6 — win-detection scan order -/

/-- Counterexample for C6: in `cex6` (2-player) both pawn 0 and pawn 1 stand
on their target rows.  Scanning upward from index 0, the first matching
index is 0 — but `check_winner` has no early exit, so the later match
overwrites the earlier one and the pass sets `winner = 1`. -/
theorem c6_counterexample :
    hitsTarget cex6.num_players 0 (cex6.pawns.getD 0 ⟨0, 0⟩) = true ∧
    cex6.winner = none ∧
    cex6.check_winner.winner = some 1 := by
  refine ⟨by decide, by decide, by decide⟩

/-- C6 amended: `check_winner` never overwrites an already-set winner, and
when no winner is set it assigns the LAST player index (scanning upward)
whose pawn has reached its target line — not the first. -/
theorem c6_check_winner_last (s : GameState) :
    (s.winner ≠ none → s.check_winner = s) ∧
    (s.winner = none → (s.pawns.length = 2 ∨ s.pawns.length = 4) →
      ∀ i : Nat, i < s.pawns.length →
        hitsTarget s.num_players i (s.pawns.getD i ⟨0, 0⟩) = true →
        (∀ j : Nat, i < j → j < s.pawns.length →
          hitsTarget s.num_players j (s.pawns.getD j ⟨0, 0⟩) = false) →
        s.check_winner.winner = some (i : Int)) := by
  constructor
  · intro h
    unfold GameState.check_winner
    rw [if_pos h]
  · intro hw hlen i hi hhit hafter
    unfold GameState.check_winner
    rw [if_neg (by simp [hw])]
    dsimp only
    rw [hw]
    rcases hlen with h2 | h4
    · obtain ⟨p0, p1, hp⟩ := List.length_eq_two.mp h2
      rw [hp] at hhit hafter ⊢
      rw [hp] at hi
      simp only [List.length_cons, List.length_nil] at hi
      interval_cases i
      · have h1 := hafter 1 (by omega) (by simp)
        simp only [List.getD_cons_zero] at hhit
        simp only [List.getD_cons_succ, List.getD_cons_zero] at h1
        simp [List.enum, List.foldl, winnerStep_eq_hits, hhit, h1]
      · simp only [List.getD_cons_succ, List.getD_cons_zero] at hhit
        simp [List.enum, List.foldl, winnerStep_eq_hits, hhit]
    · obtain ⟨p0, p1, p2, p3, hp⟩ := list_length_eq_four h4
      rw [hp] at hhit hafter ⊢
      rw [hp] at hi
      simp only [List.length_cons, List.length_nil] at hi
      interval_cases i
      · have h1 := hafter 1 (by omega) (by simp)
        have h2 := hafter 2 (by omega) (by simp)
        have h3 := hafter 3 (by omega) (by simp)
        simp only [List.getD_cons_zero, List.getD_cons_succ] at hhit h1 h2 h3
        simp [List.enum, List.foldl, winnerStep_eq_hits, hhit, h1, h2, h3]
      · have h2 := hafter 2 (by omega) (by simp)
        have h3 := hafter 3 (by omega) (by simp)
        simp only [List.getD_cons_zero, List.getD_cons_succ] at hhit h2 h3
        simp [List.enum, List.foldl, winnerStep_eq_hits, hhit, h2, h3]
      · have h3 := hafter 3 (by omega) (by simp)
        simp only [List.getD_cons_zero, List.getD_cons_succ] at hhit h3
        simp [List.enum, List.foldl, winnerStep_eq_hits, hhit, h3]
      · simp only [List.getD_cons_zero, List.getD_cons_succ] at hhit
        simp [List.enum, List.foldl, winnerStep_eq_hits, hhit]

/-- Witness for C6's amended theorem at the concrete state `cex6`, last
hitting index 1. -/
theorem c6_check_winner_last_witness :
    cex6.check_winner.winner = some 1 :=
  (c6_check_winner_last cex6).2 (by decide) (Or.inl (by decide)) 1 (by decide)
    (by decide) (fun j h1 h2 => by
      have hj : j < 2 := by simpa [cex6] using h2
      omega)


/-- C4: the claim says `new_game` starts the shared pool at 20 regardless of
player count.  The code does so for 2 players but initializes the pool to
`TOTAL_SHARED_WALLS + 10 = 30` in 4-player mode, contradicting both the spec
and the code's own comment ("total shared walls should be 20 regardless"):
evaluating the code at both player counts shows the divergence. -/
theorem c4_shared_pool_eval :
    (new_game 2).toOption.map GameState.shared_walls_remaining = some 20 ∧
    (new_game 4).toOption.map GameState.shared_walls_remaining = some 30 ∧
    (30 : Int) ≠ 20 := by
  refine ⟨by decide, by decide, by decide⟩

/-! ## C9 — `new_game` player-count validation -/

/-- C9: `new_game` succeeds exactly for 2 or 4 players; for every other
player count it raises before any state is constructed (modelled as
`Except.error`). -/
theorem c9_new_game_validation (n : Int) :
    isOkE (new_game n) = true ↔ (n = 2 ∨ n = 4) := by
  by_cases h : n = 2 ∨ n = 4 <;> simp [new_game, h, isOkE]

/-- Witness for C9 at the concrete inputs 3 (fails) and 2, 4 (succeed). -/
theorem c9_new_game_validation_witness :
    isOkE (new_game 3) = false ∧ isOkE (new_game 2) = true ∧
    isOkE (new_game 4) = true := by
  refine ⟨?_, ?_, ?_⟩
  · have h := c9_new_game_validation 3
    simp only [show ¬((3 : Int) = 2 ∨ (3 : Int) = 4) from by decide, iff_false] at h
    simpa using h
  · exact (c9_new_game_validation 2).mpr (Or.inl rfl)
  · exact (c9_new_game_validation 4).mpr (Or.inr rfl)

/-! ## C8 — clone independence -/

/-- C8: `clone` allocates fresh pawn-list and wall-set objects, so
overwriting the clone's objects with any contents leaves the original
state's pawn list and wall set unchanged. -/
theorem c8_clone_independence (h : HeapModel) (s : GameStateR)
    (newPawns : List Position) (newWalls : List WallKey)
    (hv : ValidRefs h s) :
    (cloneR h s).2.pawnsRef ≠ s.pawnsRef ∧
    (cloneR h s).2.wallsRef ≠ s.wallsRef ∧
    getPawnsH (setWallsH (setPawnsH (cloneR h s).1 (cloneR h s).2.pawnsRef newPawns)
        (cloneR h s).2.wallsRef newWalls) s.pawnsRef = getPawnsH h s.pawnsRef ∧
    getWallsH (setWallsH (setPawnsH (cloneR h s).1 (cloneR h s).2.pawnsRef newPawns)
        (cloneR h s).2.wallsRef newWalls) s.wallsRef = getWallsH h s.wallsRef := by
  obtain ⟨hp, hw⟩ := hv
  have hpr : (cloneR h s).2.pawnsRef = h.pawnsH.length := rfl
  have hwr : (cloneR h s).2.wallsRef = h.wallsH.length := rfl
  refine ⟨by rw [hpr]; omega, by rw [hwr]; omega, ?_, ?_⟩
  · have h1 : getPawnsH (setWallsH (setPawnsH (cloneR h s).1 (cloneR h s).2.pawnsRef newPawns)
        (cloneR h s).2.wallsRef newWalls) s.pawnsRef
        = getPawnsH (setPawnsH (cloneR h s).1 (cloneR h s).2.pawnsRef newPawns) s.pawnsRef := rfl
    rw [h1, getPawnsH_set_ne _ _ _ _ (by rw [hpr]; omega)]
    exact getPawnsH_append h s.pawnsRef _ hp
  · rw [getWallsH_set_ne _ _ _ _ (by rw [hwr]; omega)]
    have h2 : getWallsH (setPawnsH (cloneR h s).1 (cloneR h s).2.pawnsRef newPawns) s.wallsRef
        = getWallsH (cloneR h s).1 s.wallsRef := rfl
    rw [h2]
    exact getWallsH_append _ s.wallsRef _ (by simpa using hw)

/-! ## C10 — `apply_move` leaves its input unchanged -/

/-- The heap returned by `apply_moveR` does not depend on the win-detection
and turn-advance stages. -/
theorem apply_moveR_fst (h : HeapModel) (s : GameStateR) (m : Move) :
    (apply_moveR h s m).1 = (applyBranchR (cloneR h s).1 (cloneR h s).2 m).1 := by
  unfold apply_moveR
  dsimp only
  split <;> rfl

/-- The branch stage changes neither reference of the state it threads. -/
theorem applyBranchR_refs (h1 : HeapModel) (ns : GameStateR) (m : Move) :
    (applyBranchR h1 ns m).2.pawnsRef = ns.pawnsRef ∧
    (applyBranchR h1 ns m).2.wallsRef = ns.wallsRef := by
  unfold applyBranchR
  split
  · exact ⟨rfl, rfl⟩
  · split <;> exact ⟨rfl, rfl⟩

/-- Win detection changes neither reference. -/
theorem checkWinnerR_refs (h : HeapModel) (ns : GameStateR) :
    (checkWinnerR h ns).pawnsRef = ns.pawnsRef ∧
    (checkWinnerR h ns).wallsRef = ns.wallsRef := by
  unfold checkWinnerR
  split <;> exact ⟨rfl, rfl⟩

theorem apply_moveR_snd_refs (h : HeapModel) (s : GameStateR) (m : Move) :
    (apply_moveR h s m).2.pawnsRef = (cloneR h s).2.pawnsRef ∧
    (apply_moveR h s m).2.wallsRef = (cloneR h s).2.wallsRef := by
  have hb := applyBranchR_refs (cloneR h s).1 (cloneR h s).2 m
  have hc := checkWinnerR_refs (applyBranchR (cloneR h s).1 (cloneR h s).2 m).1
    (applyBranchR (cloneR h s).1 (cloneR h s).2 m).2
  unfold apply_moveR
  dsimp only
  split <;> exact ⟨hc.1.trans hb.1, hc.2.trans hb.2⟩

/-- C10: `apply_move` never mutates its input state: the readback of the
original state (pawn list, wall set, and all scalar fields) through the
post-call heap is unchanged, and the returned state is built from a fresh
clone (its mutable substructures are different objects from the input's). -/
theorem c10_apply_move_frame (h : HeapModel) (s : GameStateR) (m : Move)
    (hv : ValidRefs h s) :
    readStateR (apply_moveR h s m).1 s = readStateR h s ∧
    (apply_moveR h s m).2.pawnsRef ≠ s.pawnsRef ∧
    (apply_moveR h s m).2.wallsRef ≠ s.wallsRef := by
  obtain ⟨hp, hw⟩ := hv
  have hpr : (cloneR h s).2.pawnsRef = h.pawnsH.length := rfl
  have hwr : (cloneR h s).2.wallsRef = h.wallsH.length := rfl
  have hrefs := apply_moveR_snd_refs h s m
  have hgetp : getPawnsH (apply_moveR h s m).1 s.pawnsRef = getPawnsH h s.pawnsRef := by
    rw [apply_moveR_fst]
    have hbase : getPawnsH (cloneR h s).1 s.pawnsRef = getPawnsH h s.pawnsRef :=
      getPawnsH_append h s.pawnsRef _ hp
    unfold applyBranchR
    split
    · rw [getPawnsH_set_ne _ _ _ _ (by rw [hpr]; omega)]
      exact hbase
    · split
      · exact hbase
      · exact hbase
  have hgetw : getWallsH (apply_moveR h s m).1 s.wallsRef = getWallsH h s.wallsRef := by
    rw [apply_moveR_fst]
    have hbase : getWallsH (cloneR h s).1 s.wallsRef = getWallsH h s.wallsRef :=
      getWallsH_append _ s.wallsRef _ (by simpa using hw)
    unfold applyBranchR
    split
    · exact hbase
    · split
      · rw [getWallsH_set_ne _ _ _ _ (by rw [hwr]; omega)]
        exact hbase
      · exact hbase
  refine ⟨?_, ?_, ?_⟩
  · simp only [readStateR, hgetp, hgetw]
  · rw [hrefs.1, hpr]; omega
  · rw [hrefs.2, hwr]; omega

/-- Witness for C10 at a concrete heap and a concrete pawn move. -/
theorem c10_apply_move_frame_witness :
    readStateR (apply_moveR ⟨[[⟨0, 4⟩, ⟨8, 4⟩]], [[]]⟩ ⟨0, 0, 20, 0, none, 2⟩
        (Move.mkPawn 1 4)).1 ⟨0, 0, 20, 0, none, 2⟩
      = readStateR ⟨[[⟨0, 4⟩, ⟨8, 4⟩]], [[]]⟩ ⟨0, 0, 20, 0, none, 2⟩ :=
  (c10_apply_move_frame ⟨[[⟨0, 4⟩, ⟨8, 4⟩]], [[]]⟩ ⟨0, 0, 20, 0, none, 2⟩
    (Move.mkPawn 1 4) ⟨by decide, by decide⟩).1

/-- Witness for C8 at a concrete one-object heap. -/
theorem c8_clone_independence_witness :
    ValidRefs ⟨[[⟨0, 4⟩]], [[(0, 0, true)]]⟩ ⟨0, 0, 20, 0, none, 2⟩ ∧
    getPawnsH (setWallsH
        (setPawnsH (cloneR ⟨[[⟨0, 4⟩]], [[(0, 0, true)]]⟩ ⟨0, 0, 20, 0, none, 2⟩).1
          (cloneR ⟨[[⟨0, 4⟩]], [[(0, 0, true)]]⟩ ⟨0, 0, 20, 0, none, 2⟩).2.pawnsRef [⟨5, 5⟩])
        (cloneR ⟨[[⟨0, 4⟩]], [[(0, 0, true)]]⟩ ⟨0, 0, 20, 0, none, 2⟩).2.wallsRef [])
      0 = [⟨0, 4⟩] :=
  ⟨⟨by decide, by decide⟩,
    (c8_clone_independence ⟨[[⟨0, 4⟩]], [[(0, 0, true)]]⟩ ⟨0, 0, 20, 0, none, 2⟩
      [⟨5, 5⟩] [] ⟨by decide, by decide⟩).2.2.1⟩

end Quoridor
